import Mathlib

/-!
Shallow embedding of the GitLab synchronization service
(`src/services/gitlab-sync.js`) of the afonsystem repository.

JSON values are modelled by a mutual inductive family `Value` /
`ValueList` / `FieldList` (JS `undefined` included, since property
access on absent fields yields `undefined`).  MongoDB documents are
association lists `Doc := List (String × Value)`; the store is one
list of documents per collection.  The remote API is a function from
URL to the list of HTTP page responses; pages beyond the list are
empty 200 responses, matching the server's end-of-listing signal.
-/
mutual

inductive Value where
  | vUndef : Value
  | vNull : Value
  | vBool : Bool → Value
  | vInt : Int → Value
  | vStr : String → Value
  | vArr : ValueList → Value
  | vObj : FieldList → Value

inductive ValueList where
  | nil : ValueList
  | cons : Value → ValueList → ValueList

inductive FieldList where
  | nil : FieldList
  | cons : String → Value → FieldList → FieldList

end

deriving instance DecidableEq for Value

deriving instance DecidableEq for ValueList

deriving instance DecidableEq for FieldList

/-- JS truthiness of a value (`x || d` picks `d` exactly when `x` is falsy). -/
def Value.truthy : Value → Bool
  | .vUndef => false
  | .vNull => false
  | .vBool b => b
  | .vInt n => n != 0
  | .vStr s => s ≠ ""
  | .vArr _ => true
  | .vObj _ => true

/-- JS `x || d`. -/
def jsOr (x d : Value) : Value := if x.truthy then x else d

/-- Field lookup inside a JSON object; absent keys yield `undefined`. -/
def FieldList.lookupF : FieldList → String → Value
  | .nil, _ => .vUndef
  | .cons k v rest, key => if k = key then v else rest.lookupF key

/-- JS property access `v.key`: `undefined` unless `v` is an object with the key. -/
def Value.get : Value → String → Value
  | .vObj fs, key => fs.lookupF key
  | _, _ => .vUndef

mutual

/-- JS template-literal string conversion of a value. -/
def Value.jsToString : Value → String
  | .vUndef => "undefined"
  | .vNull => "null"
  | .vBool b => if b then "true" else "false"
  | .vInt n => toString n
  | .vStr s => s
  | .vArr l => l.jsToString
  | .vObj _ => "[object Object]"

/-- JS array-to-string: elements joined with commas, null and undefined
elements rendered empty. -/
def ValueList.jsToString : ValueList → String
  | .nil => ""
  | .cons v rest =>
    (match v with
     | .vUndef => ""
     | .vNull => ""
     | _ => v.jsToString) ++
    (match rest with
     | .nil => ""
     | _ => "," ++ rest.jsToString)

end

deriving instance DecidableEq for Except

/-- A MongoDB document: an association list of fields. -/
abbrev Doc := List (String × Value)

/-- JS property access on a remote record modelled as a document. -/
def Doc.get (d : Doc) (key : String) : Value :=
  match d with
  | [] => .vUndef
  | (k, v) :: rest => if k = key then v else Doc.get rest key

/-- First value stored under a key, if any (MongoDB field read). -/
def lookupField (d : Doc) (key : String) : Option Value :=
  match d with
  | [] => none
  | (k, v) :: rest => if k = key then some v else lookupField rest key

/-- MongoDB `$set` of a single field: overwrite in place or append. -/
def setField (d : Doc) (key : String) (v : Value) : Doc :=
  match d with
  | [] => [(key, v)]
  | (k, w) :: rest => if k = key then (k, v) :: rest else (k, w) :: setField rest key v

/-- MongoDB `$set` of a whole field set, applied left to right. -/
def setFields (d : Doc) (fields : Doc) : Doc :=
  fields.foldl (fun acc kv => setField acc kv.1 kv.2) d

/-- Whether a document matches an equality filter (all filter fields present and equal). -/
def docMatches (filter : Doc) (d : Doc) : Bool :=
  filter.all fun kv => lookupField d kv.1 == some kv.2

/-! ## The paginator (`paginatedGet`) -/
/-- One HTTP response of the remote API: status line plus parsed JSON array body. -/
structure HttpResponse where
  status : Nat
  statusText : String
  jsonBody : List Doc
deriving DecidableEq

/-- `res.ok` of the fetch API: status in the 2xx range. -/
def HttpResponse.isOk (r : HttpResponse) : Bool :=
  200 ≤ r.status && r.status ≤ 299

/-- A fixed remote snapshot: for each endpoint URL, the successive page
responses.  Pages past the end of the list are empty `200 OK` responses,
which is how the server signals end of listing. -/
def Remote : Type := String → List HttpResponse

/-- `URLSearchParams(params).toString()` for the simple parameters the service uses. -/
def queryString (params : List (String × String)) : String :=
  String.intercalate "&" (params.map fun p => p.1 ++ "=" ++ p.2)

/-- The full URL fetched for one page: the code sets `per_page = 100` and a
running `page` counter on the caller's params before serializing them. -/
def pageUrl (url : String) (params : List (String × String)) (page : Nat) : String :=
  url ++ "?" ++ queryString (params ++ [("per_page", "100"), ("page", toString page)])

/-- The message of the error thrown on a non-2xx response. -/
def gitlabApiError (status : Nat) (statusText : String) (url : String) : String :=
  s!"GitLab API error: {status} {statusText} for {url}"

/-- The page-fetch loop of `paginatedGet`: walks the remaining page responses,
returning the concatenated records (or the thrown error) together with the
trace of URLs fetched.  An exhausted page list yields the server's empty
`200 OK` page, terminating the loop. -/
def paginatedGetGo (url : String) (params : List (String × String)) :
    Nat → List HttpResponse → Except String (List Doc) × List String
  | page, [] => (.ok [], [pageUrl url params page])
  | page, res :: rest =>
    if res.isOk then
      if res.jsonBody.length = 0 then (.ok [], [pageUrl url params page])
      else
        ((paginatedGetGo url params (page + 1) rest).1.map fun ds => res.jsonBody ++ ds,
          pageUrl url params page :: (paginatedGetGo url params (page + 1) rest).2)
    else (.error (gitlabApiError res.status res.statusText url), [pageUrl url params page])

/-- `paginatedGet(url, params)`: starts at page 1 and drains the listing.
Also returns the trace of URLs fetched (one per fetch call). -/
def paginatedGet (pages : List HttpResponse) (url : String)
    (params : List (String × String)) : Except String (List Doc) × List String :=
  paginatedGetGo url params 1 pages

/-! ## The store and the upsert writer -/
/-- The five collections of the `afonsystem` database. -/
structure Store where
  projects : List Doc
  members : List Doc
  commits : List Doc
  merge_requests : List Doc
  issues : List Doc
deriving DecidableEq

/-- `updateOne(filter, { $set }, { upsert: true })`: the first matching
document gets the field set applied in place; with no match a new document
is inserted, built from the filter's equality fields with the set applied. -/
def updateOneUpsert (c : List Doc) (filter setDoc : Doc) : List Doc :=
  match c with
  | [] => [setFields filter setDoc]
  | d :: rest =>
    if docMatches filter d then setFields d setDoc :: rest
    else d :: updateOneUpsert rest filter setDoc

/-- `bulkWrite` of a list of upsert operations `(filter, $set-document)`,
applied in order (MongoDB bulk writes are ordered by default). -/
def bulkWrite (c : List Doc) (ops : List (Doc × Doc)) : List Doc :=
  ops.foldl (fun acc op => updateOneUpsert acc op.1 op.2) c

/-- One write call issued to the database. -/
inductive WriteCall where
  | updateOne : String → Doc → Doc → WriteCall
  | bulkWrite : String → List (Doc × Doc) → WriteCall
deriving DecidableEq

/-- The collection a write call targets. -/
def WriteCall.coll : WriteCall → String
  | .updateOne c _ _ => c
  | .bulkWrite c _ => c

/-- Read a collection of the store by its name. -/
def Store.getColl (s : Store) : String → List Doc
  | "projects" => s.projects
  | "members" => s.members
  | "commits" => s.commits
  | "merge_requests" => s.merge_requests
  | "issues" => s.issues
  | _ => []

/-- Replace a collection of the store by its name. -/
def Store.setColl (s : Store) (name : String) (c : List Doc) : Store :=
  match name with
  | "projects" => { s with projects := c }
  | "members" => { s with members := c }
  | "commits" => { s with commits := c }
  | "merge_requests" => { s with merge_requests := c }
  | "issues" => { s with issues := c }
  | _ => s

/-- Apply one write call to the store. -/
def applyWrite (s : Store) : WriteCall → Store
  | .updateOne name filter setDoc =>
    s.setColl name (updateOneUpsert (s.getColl name) filter setDoc)
  | .bulkWrite name ops => s.setColl name (bulkWrite (s.getColl name) ops)

/-- Apply a sequence of write calls in order. -/
def applyWrites (s : Store) (ws : List WriteCall) : Store :=
  ws.foldl applyWrite s

/-- Database handle state: the stored collections plus the log of every
write call issued (used to observe that no write happens at all in the
empty-listing short-circuits). -/
structure DBState where
  store : Store
  writeLog : List WriteCall
deriving DecidableEq

/-- `db.collection(name).updateOne(filter, { $set: doc }, { upsert: true })`. -/
def dbUpdateOne (db : DBState) (name : String) (filter setDoc : Doc) : DBState :=
  { store := applyWrite db.store (.updateOne name filter setDoc),
    writeLog := db.writeLog ++ [.updateOne name filter setDoc] }

/-- `db.collection(name).bulkWrite(ops)`. -/
def dbBulkWrite (db : DBState) (name : String) (ops : List (Doc × Doc)) : DBState :=
  { store := applyWrite db.store (.bulkWrite name ops),
    writeLog := db.writeLog ++ [.bulkWrite name ops] }

/-! ## The sync environment and the five entity syncers -/
/-- Configuration of a run: the `GITLAB_URL` base and the remote snapshot. -/
structure SyncEnv where
  gitlabUrl : String
  remote : Remote

/-- Listing endpoint for the accessible projects. -/
def projectsUrl (env : SyncEnv) : String :=
  env.gitlabUrl ++ "/api/v4/projects"

/-- Listing endpoint for a project's members (`/members/all`). -/
def membersUrl (env : SyncEnv) (projectId : Value) : String :=
  env.gitlabUrl ++ "/api/v4/projects/" ++ projectId.jsToString ++ "/members/all"

/-- Listing endpoint for a project's commits. -/
def commitsUrl (env : SyncEnv) (projectId : Value) : String :=
  env.gitlabUrl ++ "/api/v4/projects/" ++ projectId.jsToString ++ "/repository/commits"

/-- Listing endpoint for a project's merge requests. -/
def mergeRequestsUrl (env : SyncEnv) (projectId : Value) : String :=
  env.gitlabUrl ++ "/api/v4/projects/" ++ projectId.jsToString ++ "/merge_requests"

/-- Listing endpoint for a project's issues. -/
def issuesUrl (env : SyncEnv) (projectId : Value) : String :=
  env.gitlabUrl ++ "/api/v4/projects/" ++ projectId.jsToString ++ "/issues"

/-- The member upsert operation built for one remote member record. -/
def memberOp (projectId : Value) (m : Doc) : Doc × Doc :=
  ([("project_id", projectId), ("user_id", m.get "id")],
   [("project_id", projectId),
    ("user_id", m.get "id"),
    ("username", m.get "username"),
    ("name", m.get "name"),
    ("access_level", m.get "access_level")])

/-- `syncMembers(projectId)`. -/
def syncMembers (env : SyncEnv) (projectId : Value) (db : DBState) :
    Except String Nat × DBState :=
  let url := membersUrl env projectId
  match (paginatedGet (env.remote url) url []).1 with
  | .error e => (.error e, db)
  | .ok members =>
    if members.length = 0 then (.ok 0, db)
    else
      let ops := members.map (memberOp projectId)
      (.ok ops.length, dbBulkWrite db "members" ops)

/-- The commit upsert operation built for one remote commit record:
`stats = c.stats || {}` and the three counters default to 0. -/
def commitOp (projectId : Value) (c : Doc) : Doc × Doc :=
  let stats := jsOr (c.get "stats") (.vObj .nil)
  ([("project_id", projectId), ("sha", c.get "id")],
   [("project_id", projectId),
    ("sha", c.get "id"),
    ("short_id", c.get "short_id"),
    ("author_name", c.get "author_name"),
    ("author_email", c.get "author_email"),
    ("committed_date", c.get "committed_date"),
    ("message", c.get "message"),
    ("additions", jsOr (stats.get "additions") (.vInt 0)),
    ("deletions", jsOr (stats.get "deletions") (.vInt 0)),
    ("total", jsOr (stats.get "total") (.vInt 0))])

/-- `syncCommits(projectId)`. -/
def syncCommits (env : SyncEnv) (projectId : Value) (db : DBState) :
    Except String Nat × DBState :=
  let url := commitsUrl env projectId
  match (paginatedGet (env.remote url) url [("all", "true"), ("with_stats", "true")]).1 with
  | .error e => (.error e, db)
  | .ok commits =>
    if commits.length = 0 then (.ok 0, db)
    else
      let ops := commits.map (commitOp projectId)
      (.ok ops.length, dbBulkWrite db "commits" ops)

/-- The merge-request upsert operation built for one remote MR record:
`author = mr.author || {}` and identity/time fields default to null. -/
def mergeRequestOp (projectId : Value) (mr : Doc) : Doc × Doc :=
  let author := jsOr (mr.get "author") (.vObj .nil)
  ([("project_id", projectId), ("iid", mr.get "iid")],
   [("project_id", projectId),
    ("iid", mr.get "iid"),
    ("title", mr.get "title"),
    ("author_username", jsOr (author.get "username") .vNull),
    ("author_name", jsOr (author.get "name") .vNull),
    ("state", mr.get "state"),
    ("created_at", mr.get "created_at"),
    ("merged_at", jsOr (mr.get "merged_at") .vNull),
    ("closed_at", jsOr (mr.get "closed_at") .vNull),
    ("source_branch", mr.get "source_branch"),
    ("target_branch", mr.get "target_branch"),
    ("merge_commit_sha", jsOr (mr.get "merge_commit_sha") .vNull)])

/-- `syncMergeRequests(projectId)`. -/
def syncMergeRequests (env : SyncEnv) (projectId : Value) (db : DBState) :
    Except String Nat × DBState :=
  let url := mergeRequestsUrl env projectId
  match (paginatedGet (env.remote url) url [("state", "all")]).1 with
  | .error e => (.error e, db)
  | .ok mrs =>
    if mrs.length = 0 then (.ok 0, db)
    else
      let ops := mrs.map (mergeRequestOp projectId)
      (.ok ops.length, dbBulkWrite db "merge_requests" ops)

/-- `(issue.assignees || []).map(a => ({ username: a.username, name: a.name }))`. -/
def mapAssigneesList : ValueList → ValueList
  | .nil => .nil
  | .cons a rest =>
    .cons (.vObj (.cons "username" (a.get "username") (.cons "name" (a.get "name") .nil)))
      (mapAssigneesList rest)

/-- The assignees field value: defaults to an empty list, then element-wise mapping. -/
def mapAssignees (v : Value) : Value :=
  match jsOr v (.vArr .nil) with
  | .vArr l => .vArr (mapAssigneesList l)
  | _ => .vArr .nil

/-- The issue upsert operation built for one remote issue record. -/
def issueOp (projectId : Value) (issue : Doc) : Doc × Doc :=
  let author := jsOr (issue.get "author") (.vObj .nil)
  ([("project_id", projectId), ("iid", issue.get "iid")],
   [("project_id", projectId),
    ("iid", issue.get "iid"),
    ("title", issue.get "title"),
    ("author_username", jsOr (author.get "username") .vNull),
    ("author_name", jsOr (author.get "name") .vNull),
    ("assignees", mapAssignees (issue.get "assignees")),
    ("state", issue.get "state"),
    ("labels", jsOr (issue.get "labels") (.vArr .nil)),
    ("created_at", issue.get "created_at"),
    ("closed_at", jsOr (issue.get "closed_at") .vNull)])

/-- `syncIssues(projectId)`. -/
def syncIssues (env : SyncEnv) (projectId : Value) (db : DBState) :
    Except String Nat × DBState :=
  let url := issuesUrl env projectId
  match (paginatedGet (env.remote url) url [("state", "all")]).1 with
  | .error e => (.error e, db)
  | .ok issues =>
    if issues.length = 0 then (.ok 0, db)
    else
      let ops := issues.map (issueOp projectId)
      (.ok ops.length, dbBulkWrite db "issues" ops)

/-! ## The orchestrator (`syncProjects`, `runSync`) -/
/-- The project document built for one remote project record. -/
def projectDoc (project : Doc) : Doc :=
  [("project_id", project.get "id"),
   ("name", project.get "name"),
   ("path_with_namespace", project.get "path_with_namespace"),
   ("description", jsOr (project.get "description") .vNull),
   ("created_at", project.get "created_at"),
   ("default_branch", jsOr (project.get "default_branch") .vNull),
   ("web_url", project.get "web_url")]

/-- Per-project body of `syncProjects`: upsert the project record, then run
the member, commit, merge-request and issue syncers in that fixed order,
aborting on the first error. -/
def syncProjectsLoop (env : SyncEnv) : List Doc → DBState → Except String Unit × DBState
  | [], db => (.ok (), db)
  | project :: rest, db =>
    let pid := project.get "id"
    let doc := projectDoc project
    let db := dbUpdateOne db "projects" [("project_id", Doc.get doc "project_id")] doc
    match syncMembers env pid db with
    | (.error e, db) => (.error e, db)
    | (.ok _, db) =>
      match syncCommits env pid db with
      | (.error e, db) => (.error e, db)
      | (.ok _, db) =>
        match syncMergeRequests env pid db with
        | (.error e, db) => (.error e, db)
        | (.ok _, db) =>
          match syncIssues env pid db with
          | (.error e, db) => (.error e, db)
          | (.ok _, db) => syncProjectsLoop env rest db

/-- `syncProjects()`: fetch the accessible projects and process each in turn;
returns the number of projects listed. -/
def syncProjects (env : SyncEnv) (db : DBState) : Except String Nat × DBState :=
  let url := projectsUrl env
  match (paginatedGet (env.remote url) url [("membership", "true")]).1 with
  | .error e => (.error e, db)
  | .ok projects =>
    match syncProjectsLoop env projects db with
    | (.error e, db) => (.error e, db)
    | (.ok _, db) => (.ok projects.length, db)

/-- The run summary logged on success: project count, post-hoc per-collection
document counts (`countDocuments({})` on the whole store), and the elapsed
wall-clock milliseconds (the code prints `elapsed / 1000` with one decimal). -/
structure RunSummary where
  projectCount : Nat
  counts : List (String × Nat)
  elapsedMs : Nat
deriving DecidableEq

/-- Outcome of one `runSync()` call. -/
inductive RunResult where
  | completed : RunSummary → RunResult
  | failed : String → RunResult
deriving DecidableEq

/-- `runSync()`: the single top-level try/catch boundary.  `startMs` and
`endMs` are the two `Date.now()` readings. -/
def runSync (env : SyncEnv) (db : DBState) (startMs endMs : Nat) : RunResult × DBState :=
  match syncProjects env db with
  | (.error e, db) => (.failed e, db)
  | (.ok projectCount, db) =>
    (.completed
      { projectCount := projectCount,
        counts :=
          [("projects", db.store.projects.length),
           ("members", db.store.members.length),
           ("commits", db.store.commits.length),
           ("merge_requests", db.store.merge_requests.length),
           ("issues", db.store.issues.length)],
        elapsedMs := endMs - startMs },
     db)

/-- The line `console.error('[gitlab-sync] Sync failed:', err.message)` prints. -/
def syncFailedLine (msg : String) : String :=
  "[gitlab-sync] Sync failed: " ++ msg

/-- The start line of a run (the code prints the current date here). -/
def syncStartLine (startMs : Nat) : String :=
  s!"[gitlab-sync] Starting sync at {startMs}"

/-- One per-collection summary line. -/
def summaryLine (p : String × Nat) : String :=
  s!"[gitlab-sync]   {p.1}: {p.2} documents"

/-- The completion line; `toFixed(1)` of `elapsed/1000` is modelled as
rounding to tenths of a second. -/
def syncCompletedLine (projectCount elapsedMs : Nat) : String :=
  let t := (elapsedMs + 50) / 100
  s!"[gitlab-sync] Sync completed: {projectCount} projects in {t / 10}.{t % 10}s"

/-- The run-level console output of `runSync` (start line, then on success the
summary header, per-collection counts and completion line, and on failure
only the failure line — the try block is abandoned at the throw point). -/
def runSyncLog (env : SyncEnv) (db : DBState) (startMs endMs : Nat) : List String :=
  match (runSync env db startMs endMs).1 with
  | .failed e => [syncStartLine startMs, syncFailedLine e]
  | .completed s =>
    [syncStartLine startMs, "[gitlab-sync] === MongoDB summary (afonsystem) ==="]
      ++ s.counts.map summaryLine
      ++ [syncCompletedLine s.projectCount s.elapsedMs]

/-! ## Factorization of a run into a db-independent write sequence -/
/-- The projects-listing fetch of a run. -/
def projectsFetch (env : SyncEnv) : Except String (List Doc) :=
  (paginatedGet (env.remote (projectsUrl env)) (projectsUrl env) [("membership", "true")]).1

/-- The member-listing fetch for one project. -/
def membersFetch (env : SyncEnv) (pid : Value) : Except String (List Doc) :=
  (paginatedGet (env.remote (membersUrl env pid)) (membersUrl env pid) []).1

/-- The commit-listing fetch for one project. -/
def commitsFetch (env : SyncEnv) (pid : Value) : Except String (List Doc) :=
  (paginatedGet (env.remote (commitsUrl env pid)) (commitsUrl env pid)
    [("all", "true"), ("with_stats", "true")]).1

/-- The merge-request-listing fetch for one project. -/
def mergeRequestsFetch (env : SyncEnv) (pid : Value) : Except String (List Doc) :=
  (paginatedGet (env.remote (mergeRequestsUrl env pid)) (mergeRequestsUrl env pid)
    [("state", "all")]).1

/-- The issue-listing fetch for one project. -/
def issuesFetch (env : SyncEnv) (pid : Value) : Except String (List Doc) :=
  (paginatedGet (env.remote (issuesUrl env pid)) (issuesUrl env pid) [("state", "all")]).1

/-- Write calls `syncMembers` issues (none on error or empty listing). -/
def memberWrites (env : SyncEnv) (pid : Value) : List WriteCall :=
  match membersFetch env pid with
  | .error _ => []
  | .ok ms => if ms.length = 0 then [] else [.bulkWrite "members" (ms.map (memberOp pid))]

/-- Return value of `syncMembers`. -/
def memberOutcome (env : SyncEnv) (pid : Value) : Except String Nat :=
  match membersFetch env pid with
  | .error e => .error e
  | .ok ms => if ms.length = 0 then .ok 0 else .ok (ms.map (memberOp pid)).length

/-- Write calls `syncCommits` issues. -/
def commitWrites (env : SyncEnv) (pid : Value) : List WriteCall :=
  match commitsFetch env pid with
  | .error _ => []
  | .ok cs => if cs.length = 0 then [] else [.bulkWrite "commits" (cs.map (commitOp pid))]

/-- Return value of `syncCommits`. -/
def commitOutcome (env : SyncEnv) (pid : Value) : Except String Nat :=
  match commitsFetch env pid with
  | .error e => .error e
  | .ok cs => if cs.length = 0 then .ok 0 else .ok (cs.map (commitOp pid)).length

/-- Write calls `syncMergeRequests` issues. -/
def mergeRequestWrites (env : SyncEnv) (pid : Value) : List WriteCall :=
  match mergeRequestsFetch env pid with
  | .error _ => []
  | .ok mrs =>
    if mrs.length = 0 then []
    else [.bulkWrite "merge_requests" (mrs.map (mergeRequestOp pid))]

/-- Return value of `syncMergeRequests`. -/
def mergeRequestOutcome (env : SyncEnv) (pid : Value) : Except String Nat :=
  match mergeRequestsFetch env pid with
  | .error e => .error e
  | .ok mrs => if mrs.length = 0 then .ok 0 else .ok (mrs.map (mergeRequestOp pid)).length

/-- Write calls `syncIssues` issues. -/
def issueWrites (env : SyncEnv) (pid : Value) : List WriteCall :=
  match issuesFetch env pid with
  | .error _ => []
  | .ok is => if is.length = 0 then [] else [.bulkWrite "issues" (is.map (issueOp pid))]

/-- Return value of `syncIssues`. -/
def issueOutcome (env : SyncEnv) (pid : Value) : Except String Nat :=
  match issuesFetch env pid with
  | .error e => .error e
  | .ok is => if is.length = 0 then .ok 0 else .ok (is.map (issueOp pid)).length

/-- Append a write sequence to a database handle: the store evolves and the
write log records the calls. -/
def dbAppend (db : DBState) (ws : List WriteCall) : DBState :=
  { store := applyWrites db.store ws, writeLog := db.writeLog ++ ws }

/-- The write calls one project's processing issues: the project upsert,
then each syncer's writes in the fixed member → commit → merge-request →
issue order, truncated at the first error. -/
def projectWrites (env : SyncEnv) (project : Doc) : List WriteCall :=
  let pid := project.get "id"
  let doc := projectDoc project
  WriteCall.updateOne "projects" [("project_id", Doc.get doc "project_id")] doc ::
  (match memberOutcome env pid with
   | .error _ => []
   | .ok _ => memberWrites env pid ++
     (match commitOutcome env pid with
      | .error _ => []
      | .ok _ => commitWrites env pid ++
        (match mergeRequestOutcome env pid with
         | .error _ => []
         | .ok _ => mergeRequestWrites env pid ++
           (match issueOutcome env pid with
            | .error _ => []
            | .ok _ => issueWrites env pid))))

/-- Whether one project's processing succeeds, and with which error it aborts. -/
def projectOutcome (env : SyncEnv) (project : Doc) : Except String Unit :=
  let pid := project.get "id"
  match memberOutcome env pid with
  | .error e => .error e
  | .ok _ =>
    match commitOutcome env pid with
    | .error e => .error e
    | .ok _ =>
      match mergeRequestOutcome env pid with
      | .error e => .error e
      | .ok _ =>
        match issueOutcome env pid with
        | .error e => .error e
        | .ok _ => .ok ()

/-- Write calls of the whole per-project loop, truncated at the first error. -/
def loopWrites (env : SyncEnv) : List Doc → List WriteCall
  | [] => []
  | p :: rest =>
    projectWrites env p ++
      (match projectOutcome env p with
       | .error _ => []
       | .ok _ => loopWrites env rest)

/-- Outcome of the whole per-project loop. -/
def loopOutcome (env : SyncEnv) : List Doc → Except String Unit
  | [] => .ok ()
  | p :: rest =>
    match projectOutcome env p with
    | .error e => .error e
    | .ok _ => loopOutcome env rest

/-- All write calls one run issues — a function of the environment only. -/
def runWrites (env : SyncEnv) : List WriteCall :=
  match projectsFetch env with
  | .error _ => []
  | .ok ps => loopWrites env ps

/-- Return value of `syncProjects` — a function of the environment only. -/
def syncOutcome (env : SyncEnv) : Except String Nat :=
  match projectsFetch env with
  | .error e => .error e
  | .ok ps =>
    match loopOutcome env ps with
    | .error e => .error e
    | .ok _ => .ok ps.length

/-! ## Replay analysis of ordered bulk upserts -/
/-- Structural well-formedness every sync op has: the `$set` document has the
collection's fixed key list, and the filter is its length-`m` prefix. -/
def opWF (S : List String) (m : Nat) (op : Doc × Doc) : Prop :=
  op.2.map Prod.fst = S ∧ op.1 = op.2.take m

/-- Runs the ops of a batch against one head document: ops whose filter
matches the (evolving) document are consumed into it, the rest are forwarded
to the remainder of the collection. -/
def splitOps : Doc → List (Doc × Doc) → Doc × List (Doc × Doc)
  | d, [] => (d, [])
  | d, op :: ops =>
    if docMatches op.1 d then splitOps (setFields d op.2) ops
    else
      let r := splitOps d ops
      (r.1, op :: r.2)

/-! ## Structural well-formedness of the writes a run issues -/
/-- Key list of the project `$set` document. -/
def projectKeys : List String :=
  ["project_id", "name", "path_with_namespace", "description", "created_at",
   "default_branch", "web_url"]

/-- Key list of the member `$set` document. -/
def memberKeys : List String :=
  ["project_id", "user_id", "username", "name", "access_level"]

/-- Key list of the commit `$set` document. -/
def commitKeys : List String :=
  ["project_id", "sha", "short_id", "author_name", "author_email",
   "committed_date", "message", "additions", "deletions", "total"]

/-- Key list of the merge-request `$set` document. -/
def mergeRequestKeys : List String :=
  ["project_id", "iid", "title", "author_username", "author_name", "state",
   "created_at", "merged_at", "closed_at", "source_branch", "target_branch",
   "merge_commit_sha"]

/-- Key list of the issue `$set` document. -/
def issueKeys : List String :=
  ["project_id", "iid", "title", "author_username", "author_name", "assignees",
   "state", "labels", "created_at", "closed_at"]

/-- Well-formed write calls: each targets one of the five collections with
ops of that collection's fixed shape. -/
def WCwf : WriteCall → Prop
  | .updateOne c f s => c = "projects" ∧ opWF projectKeys 1 (f, s)
  | .bulkWrite c ops =>
      (c = "members" ∧ ∀ op ∈ ops, opWF memberKeys 2 op) ∨
      (c = "commits" ∧ ∀ op ∈ ops, opWF commitKeys 2 op) ∨
      (c = "merge_requests" ∧ ∀ op ∈ ops, opWF mergeRequestKeys 2 op) ∨
      (c = "issues" ∧ ∀ op ∈ ops, opWF issueKeys 2 op)

/-! ## Per-collection projection of a write sequence -/
/-- The upsert operations a single write call carries. -/
def opsOf : WriteCall → List (Doc × Doc)
  | .updateOne _ f s => [(f, s)]
  | .bulkWrite _ ops => ops

/-- The upsert operations a write sequence applies to one named collection. -/
def opsFor (name : String) : List WriteCall → List (Doc × Doc)
  | [] => []
  | w :: ws => (if w.coll = name then opsOf w else []) ++ opsFor name ws

/-! ## Concrete fixtures for witnesses and counterexamples -/
/-- An empty store. -/
def emptyStore : Store := ⟨[], [], [], [], []⟩

/-- A fresh database handle over the empty store. -/
def emptyDB : DBState := ⟨emptyStore, []⟩

/-- A remote whose every endpoint answers `500 Internal Server Error`. -/
def errEnv : SyncEnv := ⟨"g", fun _ => [⟨500, "Internal Server Error", []⟩]⟩

/-- A remote with no accessible projects (all listings empty). -/
def emptyEnv : SyncEnv := ⟨"g", fun _ => []⟩

/-- The stored merge-request document of the running example, with one extra
field outside the mapped set. -/
def storedMR : Doc :=
  [("project_id", .vInt 1), ("iid", .vInt 7), ("state", .vStr "opened"),
   ("extra", .vStr "keep")]

/-- The natural-key filter of the running example. -/
def mrFilter : Doc := [("project_id", .vInt 1), ("iid", .vInt 7)]

/-- The new `$set` field list of the running example. -/
def mrSet : Doc := [("project_id", .vInt 1), ("iid", .vInt 7), ("state", .vStr "merged")]

/-! ## Natural-key uniqueness -/
/-- At most one stored document matches any complete natural-key filter
over the key list `F`. -/
def keyUnique (F : List String) (c : List Doc) : Prop :=
  ∀ f : Doc, f.map Prod.fst = F → (c.countP fun d => docMatches f d) ≤ 1

/-- Key uniqueness of every collection: at most one projects document per
`project_id`, and at most one member/commit/merge-request/issue document per
project-scoped natural key. -/
def storeKeyUnique (s : Store) : Prop :=
  keyUnique (projectKeys.take 1) s.projects ∧
  keyUnique (memberKeys.take 2) s.members ∧
  keyUnique (commitKeys.take 2) s.commits ∧
  keyUnique (mergeRequestKeys.take 2) s.merge_requests ∧
  keyUnique (issueKeys.take 2) s.issues

/-- The remote project record of the overwrite example. -/
def projRecord : Doc :=
  [("id", .vInt 1), ("name", .vStr "p"), ("path_with_namespace", .vStr "g/p"),
   ("created_at", .vStr "t0"), ("web_url", .vStr "w")]

/-- First snapshot: one project whose merge request `iid=7` is `opened`. -/
def mrEnvOpened : SyncEnv :=
  ⟨"g", fun url =>
    if url = "g/api/v4/projects" then [⟨200, "OK", [projRecord]⟩]
    else if url = "g/api/v4/projects/1/merge_requests" then
      [⟨200, "OK", [[("iid", .vInt 7), ("state", .vStr "opened"), ("title", .vStr "t")]]⟩]
    else []⟩

/-- Second snapshot: the same merge request, now `merged`. -/
def mrEnvMerged : SyncEnv :=
  ⟨"g", fun url =>
    if url = "g/api/v4/projects" then [⟨200, "OK", [projRecord]⟩]
    else if url = "g/api/v4/projects/1/merge_requests" then
      [⟨200, "OK", [[("iid", .vInt 7), ("state", .vStr "merged"), ("title", .vStr "t")]]⟩]
    else []⟩

/-- A remote with projects 1 and 2 where project 2's commit listing answers
HTTP 500 (all other listings empty). -/
def abortEnv : SyncEnv :=
  ⟨"g", fun url =>
    if url = "g/api/v4/projects" then
      [⟨200, "OK", [[("id", .vInt 1)], [("id", .vInt 2)]]⟩]
    else if url = "g/api/v4/projects/2/repository/commits" then
      [⟨500, "Internal Server Error", []⟩]
    else []⟩

/-- A database whose store already holds one unrelated merge request. -/
def prefilledDB : DBState :=
  ⟨⟨[], [], [], [[("project_id", .vInt 99), ("iid", .vInt 1)]], []⟩, []⟩

theorem applyWrites_nil (s : Store) : applyWrites s [] = s := rfl

theorem applyWrites_append (s : Store) (w₁ w₂ : List WriteCall) :
    applyWrites s (w₁ ++ w₂) = applyWrites (applyWrites s w₁) w₂ := by
  unfold applyWrites
  exact List.foldl_append _ _ _ _

theorem memberWrites_of_outcome_error {env : SyncEnv} {pid : Value} {e : String}
    (h : memberOutcome env pid = .error e) : memberWrites env pid = [] := by
  unfold memberOutcome at h
  unfold memberWrites
  cases hf : membersFetch env pid with
  | error e2 => rfl
  | ok ms => rw [hf] at h; by_cases hl : ms.length = 0 <;> simp [hl] at h

theorem commitWrites_of_outcome_error {env : SyncEnv} {pid : Value} {e : String}
    (h : commitOutcome env pid = .error e) : commitWrites env pid = [] := by
  unfold commitOutcome at h
  unfold commitWrites
  cases hf : commitsFetch env pid with
  | error e2 => rfl
  | ok cs => rw [hf] at h; by_cases hl : cs.length = 0 <;> simp [hl] at h

theorem mergeRequestWrites_of_outcome_error {env : SyncEnv} {pid : Value} {e : String}
    (h : mergeRequestOutcome env pid = .error e) : mergeRequestWrites env pid = [] := by
  unfold mergeRequestOutcome at h
  unfold mergeRequestWrites
  cases hf : mergeRequestsFetch env pid with
  | error e2 => rfl
  | ok mrs => rw [hf] at h; by_cases hl : mrs.length = 0 <;> simp [hl] at h

theorem issueWrites_of_outcome_error {env : SyncEnv} {pid : Value} {e : String}
    (h : issueOutcome env pid = .error e) : issueWrites env pid = [] := by
  unfold issueOutcome at h
  unfold issueWrites
  cases hf : issuesFetch env pid with
  | error e2 => rfl
  | ok is => rw [hf] at h; by_cases hl : is.length = 0 <;> simp [hl] at h

theorem dbAppend_nil (db : DBState) : dbAppend db [] = db := by
  simp [dbAppend, applyWrites]

theorem dbAppend_append (db : DBState) (w₁ w₂ : List WriteCall) :
    dbAppend db (w₁ ++ w₂) = dbAppend (dbAppend db w₁) w₂ := by
  simp [dbAppend, applyWrites_append]

theorem dbUpdateOne_eq (db : DBState) (name : String) (filter setDoc : Doc) :
    dbUpdateOne db name filter setDoc = dbAppend db [.updateOne name filter setDoc] := by
  simp [dbUpdateOne, dbAppend, applyWrites]

theorem dbBulkWrite_eq (db : DBState) (name : String) (ops : List (Doc × Doc)) :
    dbBulkWrite db name ops = dbAppend db [.bulkWrite name ops] := by
  simp [dbBulkWrite, dbAppend, applyWrites]

theorem syncMembers_eq (env : SyncEnv) (pid : Value) (db : DBState) :
    syncMembers env pid db = (memberOutcome env pid, dbAppend db (memberWrites env pid)) := by
  unfold syncMembers memberOutcome memberWrites
  cases h : membersFetch env pid with
  | error e => simp [membersFetch] at h; simp [h, dbAppend_nil]
  | ok ms =>
    simp [membersFetch] at h
    simp only [h]
    by_cases hl : ms.length = 0
    · simp [hl, dbAppend_nil]
    · simp [hl, dbBulkWrite_eq]

theorem syncCommits_eq (env : SyncEnv) (pid : Value) (db : DBState) :
    syncCommits env pid db = (commitOutcome env pid, dbAppend db (commitWrites env pid)) := by
  unfold syncCommits commitOutcome commitWrites
  cases h : commitsFetch env pid with
  | error e => simp [commitsFetch] at h; simp [h, dbAppend_nil]
  | ok cs =>
    simp [commitsFetch] at h
    simp only [h]
    by_cases hl : cs.length = 0
    · simp [hl, dbAppend_nil]
    · simp [hl, dbBulkWrite_eq]

theorem syncMergeRequests_eq (env : SyncEnv) (pid : Value) (db : DBState) :
    syncMergeRequests env pid db
      = (mergeRequestOutcome env pid, dbAppend db (mergeRequestWrites env pid)) := by
  unfold syncMergeRequests mergeRequestOutcome mergeRequestWrites
  cases h : mergeRequestsFetch env pid with
  | error e => simp [mergeRequestsFetch] at h; simp [h, dbAppend_nil]
  | ok mrs =>
    simp [mergeRequestsFetch] at h
    simp only [h]
    by_cases hl : mrs.length = 0
    · simp [hl, dbAppend_nil]
    · simp [hl, dbBulkWrite_eq]

theorem syncIssues_eq (env : SyncEnv) (pid : Value) (db : DBState) :
    syncIssues env pid db = (issueOutcome env pid, dbAppend db (issueWrites env pid)) := by
  unfold syncIssues issueOutcome issueWrites
  cases h : issuesFetch env pid with
  | error e => simp [issuesFetch] at h; simp [h, dbAppend_nil]
  | ok is =>
    simp [issuesFetch] at h
    simp only [h]
    by_cases hl : is.length = 0
    · simp [hl, dbAppend_nil]
    · simp [hl, dbBulkWrite_eq]

theorem syncProjectsLoop_eq (env : SyncEnv) (ps : List Doc) (db : DBState) :
    syncProjectsLoop env ps db = (loopOutcome env ps, dbAppend db (loopWrites env ps)) := by
  induction ps generalizing db with
  | nil => simp [syncProjectsLoop, loopOutcome, loopWrites, dbAppend_nil]
  | cons p rest ih =>
    unfold syncProjectsLoop loopOutcome loopWrites projectOutcome projectWrites
    simp only [dbUpdateOne_eq, syncMembers_eq, syncCommits_eq, syncMergeRequests_eq,
      syncIssues_eq]
    cases hm : memberOutcome env (p.get "id") with
    | error e => simp [← dbAppend_append, memberWrites_of_outcome_error hm]
    | ok nm =>
      cases hc : commitOutcome env (p.get "id") with
      | error e => simp [← dbAppend_append, commitWrites_of_outcome_error hc]
      | ok nc =>
        cases hr : mergeRequestOutcome env (p.get "id") with
        | error e => simp [← dbAppend_append, mergeRequestWrites_of_outcome_error hr]
        | ok nr =>
          cases hi : issueOutcome env (p.get "id") with
          | error e => simp [← dbAppend_append, issueWrites_of_outcome_error hi]
          | ok ni => simp [ih, ← dbAppend_append]

theorem syncProjects_eq (env : SyncEnv) (db : DBState) :
    syncProjects env db = (syncOutcome env, dbAppend db (runWrites env)) := by
  unfold syncProjects syncOutcome runWrites
  cases h : projectsFetch env with
  | error e => simp [projectsFetch] at h; simp [h, dbAppend_nil]
  | ok ps =>
    simp [projectsFetch] at h
    simp only [h, syncProjectsLoop_eq]
    cases hl : loopOutcome env ps <;> simp

/-- One run = the fixed write sequence `runWrites env` applied to the store,
with the result determined by `syncOutcome env` and the final store. -/
theorem runSync_eq (env : SyncEnv) (db : DBState) (startMs endMs : Nat) :
    runSync env db startMs endMs =
      (match syncOutcome env with
       | .error e => .failed e
       | .ok n =>
         .completed
           { projectCount := n,
             counts :=
               [("projects", (applyWrites db.store (runWrites env)).projects.length),
                ("members", (applyWrites db.store (runWrites env)).members.length),
                ("commits", (applyWrites db.store (runWrites env)).commits.length),
                ("merge_requests",
                  (applyWrites db.store (runWrites env)).merge_requests.length),
                ("issues", (applyWrites db.store (runWrites env)).issues.length)],
             elapsedMs := endMs - startMs },
       dbAppend db (runWrites env)) := by
  unfold runSync
  simp only [syncProjects_eq]
  cases syncOutcome env <;> simp [dbAppend]

/-! ## Algebra of `$set` field updates -/
theorem setFields_nil (d : Doc) : setFields d [] = d := rfl

theorem setFields_cons (d : Doc) (kv : String × Value) (fs : Doc) :
    setFields d (kv :: fs) = setFields (setField d kv.1 kv.2) fs := rfl

theorem lookupField_setField_same (d : Doc) (k : String) (v : Value) :
    lookupField (setField d k v) k = some v := by
  induction d with
  | nil => simp [setField, lookupField]
  | cons kv rest ih =>
    by_cases h : kv.1 = k
    · simp [setField, lookupField, h]
    · simp [setField, lookupField, h, ih]

theorem lookupField_setField_other (d : Doc) (k k2 : String) (v : Value) (h : k2 ≠ k) :
    lookupField (setField d k v) k2 = lookupField d k2 := by
  induction d with
  | nil => simp [setField, lookupField, Ne.symm h]
  | cons kv rest ih =>
    by_cases hk : kv.1 = k
    · subst hk
      simp [setField, lookupField, Ne.symm h]
    · by_cases hk2 : kv.1 = k2 <;>
        simp [setField, lookupField, hk, hk2, h, Ne.symm h, ih]

theorem setField_setField_same (d : Doc) (k : String) (v w : Value) :
    setField (setField d k v) k w = setField d k w := by
  induction d with
  | nil => simp [setField]
  | cons kv rest ih =>
    by_cases h : kv.1 = k
    · simp [setField, h]
    · simp [setField, h, ih]

theorem mem_keys_setField_self (d : Doc) (k : String) (v : Value) :
    k ∈ (setField d k v).map Prod.fst := by
  induction d with
  | nil => simp [setField]
  | cons kv rest ih =>
    by_cases h : kv.1 = k
    · simp [setField, h]
    · simp only [setField, if_neg h, List.map_cons, List.mem_cons]
      exact Or.inr ih

theorem mem_keys_setField (d : Doc) (k k2 : String) (v : Value)
    (h : k2 ∈ d.map Prod.fst) : k2 ∈ (setField d k v).map Prod.fst := by
  induction d with
  | nil => simp at h
  | cons kv rest ih =>
    simp only [List.map_cons, List.mem_cons] at h
    by_cases hk : kv.1 = k
    · simp only [setField, if_pos hk, List.map_cons, List.mem_cons]
      exact h
    · simp only [setField, if_neg hk, List.map_cons, List.mem_cons]
      rcases h with h | h
      · exact Or.inl h
      · exact Or.inr (ih h)

/-- In-place updates of two distinct keys commute, provided the first key is
already present (so neither order appends it). -/
theorem setField_setField_comm (d : Doc) (k k2 : String) (v w : Value)
    (hmem : k ∈ d.map Prod.fst) (h : k ≠ k2) :
    setField (setField d k v) k2 w = setField (setField d k2 w) k v := by
  induction d with
  | nil => simp at hmem
  | cons kv rest ih =>
    by_cases hk : kv.1 = k
    · subst hk
      simp [setField, h, Ne.symm h]
    · simp only [List.map_cons, List.mem_cons] at hmem
      rcases hmem with hmem | hmem
      · exact absurd hmem.symm hk
      · by_cases hk2 : kv.1 = k2
        · subst hk2
          simp [setField, hk, Ne.symm h]
        · simp [setField, hk, hk2, ih hmem]

/-- A present key's update commutes past a `$set` that does not touch it. -/
theorem setField_setFields_comm (d : Doc) (fs : Doc) (k : String) (v : Value)
    (hmem : k ∈ d.map Prod.fst) (h : k ∉ fs.map Prod.fst) :
    setField (setFields d fs) k v = setFields (setField d k v) fs := by
  induction fs generalizing d with
  | nil => rfl
  | cons kv rest ih =>
    simp only [List.map_cons, List.mem_cons, not_or] at h
    rw [setFields_cons, setFields_cons,
      ih _ (mem_keys_setField _ _ _ _ hmem) h.2,
      ← setField_setField_comm d k kv.1 v kv.2 hmem h.1]

/-- Overwrite absorption: updating with `fs` then with `fs2` of the same key
list is the same as updating with `fs2` alone. -/
theorem setFields_absorb (d : Doc) (fs fs2 : Doc)
    (hk : fs.map Prod.fst = fs2.map Prod.fst) (hnd : (fs.map Prod.fst).Nodup) :
    setFields (setFields d fs) fs2 = setFields d fs2 := by
  induction fs generalizing fs2 d with
  | nil =>
    have : fs2 = [] := by
      cases fs2 with
      | nil => rfl
      | cons kv rest => simp at hk
    simp [this, setFields_nil]
  | cons kv rest ih =>
    cases fs2 with
    | nil => simp at hk
    | cons kv2 rest2 =>
      simp only [List.map_cons, List.cons.injEq] at hk
      simp only [List.map_cons, List.nodup_cons] at hnd
      have hkey : kv2.1 = kv.1 := hk.1.symm
      rw [setFields_cons, setFields_cons, setFields_cons, hkey,
        setField_setFields_comm _ rest kv.1 kv2.2 (mem_keys_setField_self _ _ _) hnd.1,
        setField_setField_same]
      exact ih _ _ hk.2 hnd.2

theorem lookupField_setFields_not_mem (d : Doc) (fs : Doc) (k : String)
    (h : k ∉ fs.map Prod.fst) :
    lookupField (setFields d fs) k = lookupField d k := by
  induction fs generalizing d with
  | nil => rfl
  | cons kv rest ih =>
    simp only [List.map_cons, List.mem_cons, not_or] at h
    rw [setFields_cons, ih _ h.2, lookupField_setField_other _ _ _ _ h.1]

theorem lookupField_setFields_mem (d : Doc) (fs : Doc) (k : String) (v : Value)
    (hnd : (fs.map Prod.fst).Nodup) (h : (k, v) ∈ fs) :
    lookupField (setFields d fs) k = some v := by
  induction fs generalizing d with
  | nil => simp at h
  | cons kv rest ih =>
    simp only [List.map_cons, List.nodup_cons] at hnd
    rcases List.mem_cons.mp h with he | hrest
    · have hk : kv.1 = k := by rw [← he]
      have hnotin : k ∉ rest.map Prod.fst := hk ▸ hnd.1
      rw [setFields_cons, lookupField_setFields_not_mem _ _ _ hnotin, ← he,
        lookupField_setField_same]
    · rw [setFields_cons]
      exact ih _ hnd.2 hrest

/-! ## Matching lemmas -/
theorem docMatches_iff (f d : Doc) :
    docMatches f d = true ↔ ∀ kv ∈ f, lookupField d kv.1 = some kv.2 := by
  simp [docMatches, List.all_eq_true]

/-- An op's own `$set` re-establishes its filter, which is a prefix of the set. -/
theorem docMatches_take_setFields (d s : Doc) (m : Nat)
    (hnd : (s.map Prod.fst).Nodup) :
    docMatches (s.take m) (setFields d s) = true := by
  rw [docMatches_iff]
  intro kv hkv
  exact lookupField_setFields_mem _ _ _ _ hnd (List.take_subset m s hkv)

/-- Two filters over the same key list that match the same document are equal. -/
theorem filters_eq_of_matches (f1 f2 d : Doc) (hk : f1.map Prod.fst = f2.map Prod.fst)
    (h1 : docMatches f1 d = true) (h2 : docMatches f2 d = true) : f1 = f2 := by
  induction f1 generalizing f2 with
  | nil =>
    cases f2 with
    | nil => rfl
    | cons kv rest => simp at hk
  | cons kv rest ih =>
    cases f2 with
    | nil => simp at hk
    | cons kv2 rest2 =>
      simp only [List.map_cons, List.cons.injEq] at hk
      rw [docMatches_iff] at h1 h2
      have hv1 := h1 kv (List.mem_cons_self _ _)
      have hv2 := h2 kv2 (List.mem_cons_self _ _)
      rw [← hk.1] at hv2
      rw [hv1] at hv2
      have hrest : rest = rest2 := by
        apply ih
        · exact hk.2
        · rw [docMatches_iff]
          intro kv3 h3
          exact h1 kv3 (List.mem_cons_of_mem _ h3)
        · rw [docMatches_iff]
          intro kv3 h3
          exact h2 kv3 (List.mem_cons_of_mem _ h3)
      have : kv = kv2 := by
        cases kv; cases kv2
        simp only [Prod.mk.injEq]
        exact ⟨hk.1, by injection hv2⟩
      rw [this, hrest]

/-- `bulkWrite` on a non-empty collection factors through `splitOps` on the head. -/
theorem bulkWrite_cons (d : Doc) (c : List Doc) (ops : List (Doc × Doc)) :
    bulkWrite (d :: c) ops = (splitOps d ops).1 :: bulkWrite c (splitOps d ops).2 := by
  induction ops generalizing d c with
  | nil => rfl
  | cons op rest ih =>
    show bulkWrite (updateOneUpsert (d :: c) op.1 op.2) rest = _
    by_cases h : docMatches op.1 d = true
    · rw [updateOneUpsert, if_pos h, ih, splitOps, if_pos h]
    · rw [updateOneUpsert, if_neg h, ih, splitOps, if_neg h]
      rfl

theorem splitOps_fwd_mem {d : Doc} {ops : List (Doc × Doc)} {op : Doc × Doc}
    (h : op ∈ (splitOps d ops).2) : op ∈ ops := by
  induction ops generalizing d with
  | nil => simp [splitOps] at h
  | cons op2 rest ih =>
    rw [splitOps] at h
    by_cases hm : docMatches op2.1 d = true
    · rw [if_pos hm] at h
      exact List.mem_cons_of_mem _ (ih h)
    · rw [if_neg hm] at h
      rcases List.mem_cons.mp h with he | hr
      · exact he ▸ List.mem_cons_self _ _
      · exact List.mem_cons_of_mem _ (ih hr)

theorem splitOps_fwd_length_le (d : Doc) (ops : List (Doc × Doc)) :
    (splitOps d ops).2.length ≤ ops.length := by
  induction ops generalizing d with
  | nil => simp [splitOps]
  | cons op rest ih =>
    rw [splitOps]
    by_cases hm : docMatches op.1 d = true
    · rw [if_pos hm]
      exact le_trans (ih _) (Nat.le_succ _)
    · rw [if_neg hm]
      simpa using ih d

/-- If a batch forwards every op, it consumed none and the head is unchanged. -/
theorem splitOps_of_full_fwd {d : Doc} {ops : List (Doc × Doc)}
    (h : (splitOps d ops).2.length = ops.length) : splitOps d ops = (d, ops) := by
  induction ops generalizing d with
  | nil => simp [splitOps]
  | cons op rest ih =>
    rw [splitOps] at h ⊢
    by_cases hm : docMatches op.1 d = true
    · rw [if_pos hm] at h ⊢
      exfalso
      have := splitOps_fwd_length_le (setFields d op.2) rest
      simp only [List.length_cons] at h
      omega
    · rw [if_neg hm] at h ⊢
      simp only [List.length_cons, Nat.add_right_cancel_iff] at h
      rw [ih h]

/-- A document matching a batch filter still matches it after consuming any
well-formed ops (each consumed `$set` re-asserts exactly that filter). -/
theorem docMatches_splitOps {S : List String} {m : Nat} (hS : S.Nodup)
    {ops : List (Doc × Doc)}
    (hops : ∀ op ∈ ops, opWF S m op) {f d : Doc}
    (hf : f.map Prod.fst = S.take m) (hd : docMatches f d = true) :
    docMatches f (splitOps d ops).1 = true := by
  induction ops generalizing d with
  | nil => simpa [splitOps]
  | cons op rest ih =>
    have hwf := hops op (List.mem_cons_self _ _)
    have hrest : ∀ op2 ∈ rest, opWF S m op2 :=
      fun op2 h2 => hops op2 (List.mem_cons_of_mem _ h2)
    rw [splitOps]
    by_cases hm : docMatches op.1 d = true
    · rw [if_pos hm]
      have hop1keys : op.1.map Prod.fst = S.take m := by
        rw [hwf.2, List.map_take, hwf.1]
      have hfe : f = op.1 := filters_eq_of_matches _ _ _ (hf.trans hop1keys.symm) hd hm
      have hnd : (op.2.map Prod.fst).Nodup := hwf.1 ▸ hS
      exact ih hrest (hfe ▸ hwf.2 ▸ docMatches_take_setFields d op.2 m hnd)
    · rw [if_neg hm]
      exact ih hrest hd

/-- A document not matching a batch filter never comes to match it: consumed
well-formed ops re-assert their own (distinct) filter. -/
theorem docNotMatches_splitOps {S : List String} {m : Nat} (hS : S.Nodup)
    {ops : List (Doc × Doc)} (hops : ∀ op ∈ ops, opWF S m op) {f d : Doc}
    (hf : f.map Prod.fst = S.take m) (hd : docMatches f d = false) :
    docMatches f (splitOps d ops).1 = false := by
  induction ops generalizing d with
  | nil => exact hd
  | cons op rest ih =>
    have hwf := hops op (List.mem_cons_self _ _)
    have hrest : ∀ op2 ∈ rest, opWF S m op2 :=
      fun op2 h2 => hops op2 (List.mem_cons_of_mem _ h2)
    rw [splitOps]
    by_cases hm : docMatches op.1 d = true
    · rw [if_pos hm]
      have hop1keys : op.1.map Prod.fst = S.take m := by
        rw [hwf.2, List.map_take, hwf.1]
      have hnd : (op.2.map Prod.fst).Nodup := hwf.1 ▸ hS
      have hb : docMatches f (setFields d op.2) = false := by
        cases hb : docMatches f (setFields d op.2) with
        | false => rfl
        | true =>
          have hop1m : docMatches op.1 (setFields d op.2) = true :=
            hwf.2 ▸ docMatches_take_setFields d op.2 m hnd
          have : f = op.1 :=
            filters_eq_of_matches _ _ _ (hf.trans hop1keys.symm) hb hop1m
          rw [this, hm] at hd
          exact absurd hd (by simp)
      exact ih hrest hb
    · rw [if_neg hm]
      exact ih hrest hd

/-- Reading a filter key after an op's own `$set` agrees with reading it
before, provided the document already matched the filter prefix. -/
theorem lookupField_setFields_agree {S : List String} {m : Nat} (hS : S.Nodup)
    {s0 d : Doc} (hs0 : s0.map Prod.fst = S)
    (hd : docMatches (s0.take m) d = true) {k : String} (hk : k ∈ S.take m) :
    lookupField (setFields d s0) k = lookupField d k := by
  have hk2 : k ∈ (s0.take m).map Prod.fst := by
    rw [List.map_take, hs0]
    exact hk
  rcases List.mem_map.mp hk2 with ⟨kv, hkv, hfst⟩
  have hlookup : lookupField d kv.1 = some kv.2 := (docMatches_iff _ _).mp hd kv hkv
  have hmem : kv ∈ s0 := List.take_subset m s0 hkv
  have hnd : (s0.map Prod.fst).Nodup := hs0 ▸ hS
  rw [hfst] at hlookup
  have : lookupField (setFields d s0) k = some kv.2 := by
    rw [← hfst]
    exact lookupField_setFields_mem _ _ _ _ hnd (by
      cases kv
      exact hmem)
  rw [this, hlookup]

/-- Matching a batch filter is unchanged by an op's own `$set`, provided the
document already matched that op's filter prefix. -/
theorem docMatches_setFields_agree {S : List String} {m : Nat} (hS : S.Nodup)
    {s0 d : Doc} (hs0 : s0.map Prod.fst = S)
    (hd : docMatches (s0.take m) d = true) {f : Doc}
    (hf : ∀ kv ∈ f, kv.1 ∈ S.take m) :
    docMatches f (setFields d s0) = docMatches f d := by
  induction f with
  | nil => rfl
  | cons kv rest ih =>
    have h1 : lookupField (setFields d s0) kv.1 = lookupField d kv.1 :=
      lookupField_setFields_agree hS hs0 hd (hf kv (List.mem_cons_self _ _))
    have h2 := ih fun kv2 h2 => hf kv2 (List.mem_cons_of_mem _ h2)
    simp only [docMatches, List.all_cons] at h2 ⊢
    rw [h1, h2]

/-- Replaying a batch against a document freshly rewritten by one of its own
op's `$set`s: if the batch consumed something the `$set` is absorbed, and if
it consumed nothing the document just keeps the `$set`. -/
theorem splitOps_setFields {S : List String} {m : Nat} (hS : S.Nodup)
    {ops : List (Doc × Doc)} (hops : ∀ op ∈ ops, opWF S m op)
    {s0 d : Doc} (hs0 : s0.map Prod.fst = S)
    (hd : docMatches (s0.take m) d = true) :
    splitOps (setFields d s0) ops =
      if (splitOps d ops).2.length = ops.length then (setFields d s0, (splitOps d ops).2)
      else splitOps d ops := by
  induction ops with
  | nil => simp [splitOps]
  | cons op rest ih =>
    have hwf := hops op (List.mem_cons_self _ _)
    have hrest : ∀ op2 ∈ rest, opWF S m op2 :=
      fun op2 h2 => hops op2 (List.mem_cons_of_mem _ h2)
    have hop1keys : ∀ kv ∈ op.1, kv.1 ∈ S.take m := by
      intro kv hkv
      have : op.1.map Prod.fst = S.take m := by
        rw [hwf.2, List.map_take, hwf.1]
      rw [← this]
      exact List.mem_map_of_mem _ hkv
    have hagree : docMatches op.1 (setFields d s0) = docMatches op.1 d :=
      docMatches_setFields_agree hS hs0 hd hop1keys
    by_cases hm : docMatches op.1 d = true
    · rw [splitOps, hagree, if_pos hm, splitOps, if_pos hm,
        setFields_absorb d s0 op.2 (hs0.trans hwf.1.symm) (hs0 ▸ hS)]
      have hlt : (splitOps (setFields d op.2) rest).2.length ≠ (op :: rest).length := by
        have := splitOps_fwd_length_le (setFields d op.2) rest
        simp only [List.length_cons]
        omega
      rw [if_neg hlt]
    · rw [splitOps, hagree, if_neg hm, splitOps, if_neg hm]
      rw [ih hrest]
      by_cases hc : (splitOps d rest).2.length = rest.length
      · rw [if_pos hc]
        have hfull := splitOps_of_full_fwd hc
        have hcond : (op :: (splitOps d rest).2).length = (op :: rest).length := by
          simp [hc]
        simp only [hfull]
        rw [if_pos trivial]
      · rw [if_neg hc]
        have hcond : ¬(op :: (splitOps d rest).2).length = (op :: rest).length := by
          simp [hc]
        rw [if_neg (by simpa using hcond)]

/-- Replaying a batch against its own settled head document changes nothing. -/
theorem splitOps_idem {S : List String} {m : Nat} (hS : S.Nodup)
    {ops : List (Doc × Doc)} (hops : ∀ op ∈ ops, opWF S m op) (d : Doc) :
    splitOps (splitOps d ops).1 ops = splitOps d ops := by
  induction ops generalizing d with
  | nil => simp [splitOps]
  | cons op rest ih =>
    have hwf := hops op (List.mem_cons_self _ _)
    have hrest : ∀ op2 ∈ rest, opWF S m op2 :=
      fun op2 h2 => hops op2 (List.mem_cons_of_mem _ h2)
    have hnd : (op.2.map Prod.fst).Nodup := hwf.1 ▸ hS
    have hop1keys : op.1.map Prod.fst = S.take m := by
      rw [hwf.2, List.map_take, hwf.1]
    by_cases hm : docMatches op.1 d = true
    · have hinner : splitOps d (op :: rest) = splitOps (setFields d op.2) rest := by
        rw [splitOps, if_pos hm]
      rw [hinner]
      have hmatch : docMatches op.1 (splitOps (setFields d op.2) rest).1 = true := by
        apply docMatches_splitOps hS hrest hop1keys
        exact hwf.2 ▸ docMatches_take_setFields d op.2 m hnd
      rw [splitOps, if_pos hmatch]
      have hsg := splitOps_setFields hS hrest hwf.1
        (hwf.2 ▸ hmatch :
          docMatches (op.2.take m) (splitOps (setFields d op.2) rest).1 = true)
      rw [hsg, ih hrest (setFields d op.2)]
      by_cases hc : (splitOps (setFields d op.2) rest).2.length = rest.length
      · rw [if_pos hc]
        have hfull := splitOps_of_full_fwd hc
        rw [hfull]
        have habs : setFields (setFields d op.2) op.2 = setFields d op.2 :=
          setFields_absorb d op.2 op.2 rfl hnd
        simp [hfull, habs]
      · rw [if_neg hc]
    · have hinner : splitOps d (op :: rest)
          = ((splitOps d rest).1, op :: (splitOps d rest).2) := by
        rw [splitOps, if_neg hm]
      rw [hinner]
      have hnm : docMatches op.1 (splitOps d rest).1 = false :=
        docNotMatches_splitOps hS hrest hop1keys (by simpa using hm)
      rw [splitOps, if_neg (by simp [hnm])]
      rw [ih hrest d]

/-- Replay idempotence of an ordered upsert batch, empty initial collection
(strong induction on the batch length). -/
theorem bulkWrite_nil_idem {S : List String} {m : Nat} (hS : S.Nodup) :
    ∀ n (ops : List (Doc × Doc)), ops.length ≤ n → (∀ op ∈ ops, opWF S m op) →
      bulkWrite (bulkWrite [] ops) ops = bulkWrite [] ops := by
  intro n
  induction n with
  | zero =>
    intro ops hlen hops
    have : ops = [] := List.length_eq_zero.mp (Nat.le_zero.mp hlen)
    subst this
    rfl
  | succ n ih =>
    intro ops hlen hops
    cases ops with
    | nil => rfl
    | cons op rest =>
      have hwf := hops op (List.mem_cons_self _ _)
      have hrest : ∀ op2 ∈ rest, opWF S m op2 :=
        fun op2 h2 => hops op2 (List.mem_cons_of_mem _ h2)
      have hnd : (op.2.map Prod.fst).Nodup := hwf.1 ▸ hS
      have hop1keys : op.1.map Prod.fst = S.take m := by
        rw [hwf.2, List.map_take, hwf.1]
      have h1 : bulkWrite [] (op :: rest) = bulkWrite [setFields op.1 op.2] rest := rfl
      rw [h1, bulkWrite_cons]
      have hmatch :
          docMatches op.1 (splitOps (setFields op.1 op.2) rest).1 = true := by
        apply docMatches_splitOps hS hrest hop1keys
        exact hwf.2 ▸ docMatches_take_setFields op.1 op.2 m hnd
      have h2 : bulkWrite
          ((splitOps (setFields op.1 op.2) rest).1
            :: bulkWrite [] (splitOps (setFields op.1 op.2) rest).2) (op :: rest)
          = bulkWrite (updateOneUpsert
              ((splitOps (setFields op.1 op.2) rest).1
                :: bulkWrite [] (splitOps (setFields op.1 op.2) rest).2)
              op.1 op.2) rest := rfl
      rw [h2, updateOneUpsert, if_pos hmatch, bulkWrite_cons]
      have hsg := splitOps_setFields hS hrest hwf.1
        (hwf.2 ▸ hmatch :
          docMatches (op.2.take m) (splitOps (setFields op.1 op.2) rest).1 = true)
      rw [hsg, splitOps_idem hS hrest (setFields op.1 op.2)]
      have htail :
          bulkWrite (bulkWrite [] (splitOps (setFields op.1 op.2) rest).2)
              (splitOps (setFields op.1 op.2) rest).2
            = bulkWrite [] (splitOps (setFields op.1 op.2) rest).2 := by
        apply ih
        · exact le_trans (splitOps_fwd_length_le _ _)
            (by simpa [Nat.succ_le_succ_iff] using hlen)
        · exact fun op2 h2 => hrest op2 (splitOps_fwd_mem h2)
      by_cases hc : (splitOps (setFields op.1 op.2) rest).2.length = rest.length
      · rw [if_pos hc]
        have hfull := splitOps_of_full_fwd hc
        rw [hfull]
        have habs : setFields (setFields op.1 op.2) op.2 = setFields op.1 op.2 :=
          setFields_absorb op.1 op.2 op.2 rfl hnd
        simp only [habs, hfull] at htail ⊢
        rw [htail]
      · rw [if_neg hc]
        rw [htail]

/-- Replay idempotence of an ordered upsert batch of structurally well-formed
ops: running the batch twice leaves exactly the collection of one run. -/
theorem bulkWrite_idem {S : List String} {m : Nat} (hS : S.Nodup)
    (c : List Doc) (ops : List (Doc × Doc)) (hops : ∀ op ∈ ops, opWF S m op) :
    bulkWrite (bulkWrite c ops) ops = bulkWrite c ops := by
  induction c generalizing ops with
  | nil => exact bulkWrite_nil_idem hS ops.length ops le_rfl hops
  | cons d cs ih =>
    rw [bulkWrite_cons, bulkWrite_cons, splitOps_idem hS hops d,
      ih _ (fun op h => hops op (splitOps_fwd_mem h))]

theorem memberOp_wf (pid : Value) (m : Doc) : opWF memberKeys 2 (memberOp pid m) :=
  ⟨rfl, rfl⟩

theorem commitOp_wf (pid : Value) (c : Doc) : opWF commitKeys 2 (commitOp pid c) :=
  ⟨rfl, rfl⟩

theorem mergeRequestOp_wf (pid : Value) (mr : Doc) :
    opWF mergeRequestKeys 2 (mergeRequestOp pid mr) :=
  ⟨rfl, rfl⟩

theorem issueOp_wf (pid : Value) (issue : Doc) : opWF issueKeys 2 (issueOp pid issue) :=
  ⟨rfl, rfl⟩

theorem projectOp_wf (p : Doc) :
    opWF projectKeys 1 ([("project_id", Doc.get (projectDoc p) "project_id")], projectDoc p) := by
  constructor
  · rfl
  · simp [projectDoc, Doc.get]

theorem memberWrites_wf (env : SyncEnv) (pid : Value) :
    ∀ w ∈ memberWrites env pid, WCwf w := by
  intro w hw
  unfold memberWrites at hw
  split at hw
  · simp at hw
  · split at hw
    · simp at hw
    · have he := List.mem_singleton.mp hw
      subst he
      refine Or.inl ⟨rfl, ?_⟩
      intro op hop
      rcases List.mem_map.mp hop with ⟨x, hx, he2⟩
      exact he2 ▸ memberOp_wf pid x

theorem commitWrites_wf (env : SyncEnv) (pid : Value) :
    ∀ w ∈ commitWrites env pid, WCwf w := by
  intro w hw
  unfold commitWrites at hw
  split at hw
  · simp at hw
  · split at hw
    · simp at hw
    · have he := List.mem_singleton.mp hw
      subst he
      refine Or.inr (Or.inl ⟨rfl, ?_⟩)
      intro op hop
      rcases List.mem_map.mp hop with ⟨x, hx, he2⟩
      exact he2 ▸ commitOp_wf pid x

theorem mergeRequestWrites_wf (env : SyncEnv) (pid : Value) :
    ∀ w ∈ mergeRequestWrites env pid, WCwf w := by
  intro w hw
  unfold mergeRequestWrites at hw
  split at hw
  · simp at hw
  · split at hw
    · simp at hw
    · have he := List.mem_singleton.mp hw
      subst he
      refine Or.inr (Or.inr (Or.inl ⟨rfl, ?_⟩))
      intro op hop
      rcases List.mem_map.mp hop with ⟨x, hx, he2⟩
      exact he2 ▸ mergeRequestOp_wf pid x

theorem issueWrites_wf (env : SyncEnv) (pid : Value) :
    ∀ w ∈ issueWrites env pid, WCwf w := by
  intro w hw
  unfold issueWrites at hw
  split at hw
  · simp at hw
  · split at hw
    · simp at hw
    · have he := List.mem_singleton.mp hw
      subst he
      refine Or.inr (Or.inr (Or.inr ⟨rfl, ?_⟩))
      intro op hop
      rcases List.mem_map.mp hop with ⟨x, hx, he2⟩
      exact he2 ▸ issueOp_wf pid x

theorem projectWrites_wf (env : SyncEnv) (p : Doc) :
    ∀ w ∈ projectWrites env p, WCwf w := by
  intro w hw
  unfold projectWrites at hw
  rcases List.mem_cons.mp hw with he | hrest
  · subst he
    exact ⟨rfl, projectOp_wf p⟩
  · split at hrest
    · simp at hrest
    · rcases List.mem_append.mp hrest with h | h
      · exact memberWrites_wf env _ w h
      · split at h
        · simp at h
        · rcases List.mem_append.mp h with h | h
          · exact commitWrites_wf env _ w h
          · split at h
            · simp at h
            · rcases List.mem_append.mp h with h | h
              · exact mergeRequestWrites_wf env _ w h
              · split at h
                · simp at h
                · exact issueWrites_wf env _ w h

theorem loopWrites_wf (env : SyncEnv) (ps : List Doc) :
    ∀ w ∈ loopWrites env ps, WCwf w := by
  induction ps with
  | nil => intro w hw; simp [loopWrites] at hw
  | cons p rest ih =>
    intro w hw
    unfold loopWrites at hw
    rcases List.mem_append.mp hw with h | h
    · exact projectWrites_wf env p w h
    · split at h
      · simp at h
      · exact ih w h

/-- Every write call of a run is well-formed. -/
theorem runWrites_wf (env : SyncEnv) : ∀ w ∈ runWrites env, WCwf w := by
  intro w hw
  unfold runWrites at hw
  split at hw
  · simp at hw
  · exact loopWrites_wf env _ w hw

theorem bulkWrite_append (c : List Doc) (ops1 ops2 : List (Doc × Doc)) :
    bulkWrite c (ops1 ++ ops2) = bulkWrite (bulkWrite c ops1) ops2 := by
  unfold bulkWrite
  exact List.foldl_append _ _ _ _

theorem applyWrites_projects (s : Store) (ws : List WriteCall)
    (hws : ∀ w ∈ ws, WCwf w) :
    (applyWrites s ws).projects = bulkWrite s.projects (opsFor "projects" ws) := by
  induction ws generalizing s with
  | nil => rfl
  | cons w rest ih =>
    have hw := hws w (List.mem_cons_self _ _)
    have hrest : ∀ w2 ∈ rest, WCwf w2 := fun w2 h2 => hws w2 (List.mem_cons_of_mem _ h2)
    have hstep : applyWrites s (w :: rest) = applyWrites (applyWrite s w) rest := rfl
    rw [hstep, ih _ hrest, opsFor, bulkWrite_append]
    cases w with
    | updateOne c f sd =>
      obtain ⟨hc, _⟩ := hw
      subst hc
      simp [applyWrite, Store.setColl, Store.getColl, WriteCall.coll, opsOf, bulkWrite]
    | bulkWrite c ops =>
      rcases hw with ⟨hc, _⟩ | ⟨hc, _⟩ | ⟨hc, _⟩ | ⟨hc, _⟩ <;> subst hc <;>
        simp [applyWrite, Store.setColl, Store.getColl, WriteCall.coll, opsOf, bulkWrite]

theorem applyWrites_members (s : Store) (ws : List WriteCall)
    (hws : ∀ w ∈ ws, WCwf w) :
    (applyWrites s ws).members = bulkWrite s.members (opsFor "members" ws) := by
  induction ws generalizing s with
  | nil => rfl
  | cons w rest ih =>
    have hw := hws w (List.mem_cons_self _ _)
    have hrest : ∀ w2 ∈ rest, WCwf w2 := fun w2 h2 => hws w2 (List.mem_cons_of_mem _ h2)
    have hstep : applyWrites s (w :: rest) = applyWrites (applyWrite s w) rest := rfl
    rw [hstep, ih _ hrest, opsFor, bulkWrite_append]
    cases w with
    | updateOne c f sd =>
      obtain ⟨hc, _⟩ := hw
      subst hc
      simp [applyWrite, Store.setColl, Store.getColl, WriteCall.coll, opsOf, bulkWrite]
    | bulkWrite c ops =>
      rcases hw with ⟨hc, _⟩ | ⟨hc, _⟩ | ⟨hc, _⟩ | ⟨hc, _⟩ <;> subst hc <;>
        simp [applyWrite, Store.setColl, Store.getColl, WriteCall.coll, opsOf, bulkWrite]

theorem applyWrites_commits (s : Store) (ws : List WriteCall)
    (hws : ∀ w ∈ ws, WCwf w) :
    (applyWrites s ws).commits = bulkWrite s.commits (opsFor "commits" ws) := by
  induction ws generalizing s with
  | nil => rfl
  | cons w rest ih =>
    have hw := hws w (List.mem_cons_self _ _)
    have hrest : ∀ w2 ∈ rest, WCwf w2 := fun w2 h2 => hws w2 (List.mem_cons_of_mem _ h2)
    have hstep : applyWrites s (w :: rest) = applyWrites (applyWrite s w) rest := rfl
    rw [hstep, ih _ hrest, opsFor, bulkWrite_append]
    cases w with
    | updateOne c f sd =>
      obtain ⟨hc, _⟩ := hw
      subst hc
      simp [applyWrite, Store.setColl, Store.getColl, WriteCall.coll, opsOf, bulkWrite]
    | bulkWrite c ops =>
      rcases hw with ⟨hc, _⟩ | ⟨hc, _⟩ | ⟨hc, _⟩ | ⟨hc, _⟩ <;> subst hc <;>
        simp [applyWrite, Store.setColl, Store.getColl, WriteCall.coll, opsOf, bulkWrite]

theorem applyWrites_merge_requests (s : Store) (ws : List WriteCall)
    (hws : ∀ w ∈ ws, WCwf w) :
    (applyWrites s ws).merge_requests
      = bulkWrite s.merge_requests (opsFor "merge_requests" ws) := by
  induction ws generalizing s with
  | nil => rfl
  | cons w rest ih =>
    have hw := hws w (List.mem_cons_self _ _)
    have hrest : ∀ w2 ∈ rest, WCwf w2 := fun w2 h2 => hws w2 (List.mem_cons_of_mem _ h2)
    have hstep : applyWrites s (w :: rest) = applyWrites (applyWrite s w) rest := rfl
    rw [hstep, ih _ hrest, opsFor, bulkWrite_append]
    cases w with
    | updateOne c f sd =>
      obtain ⟨hc, _⟩ := hw
      subst hc
      simp [applyWrite, Store.setColl, Store.getColl, WriteCall.coll, opsOf, bulkWrite]
    | bulkWrite c ops =>
      rcases hw with ⟨hc, _⟩ | ⟨hc, _⟩ | ⟨hc, _⟩ | ⟨hc, _⟩ <;> subst hc <;>
        simp [applyWrite, Store.setColl, Store.getColl, WriteCall.coll, opsOf, bulkWrite]

theorem applyWrites_issues (s : Store) (ws : List WriteCall)
    (hws : ∀ w ∈ ws, WCwf w) :
    (applyWrites s ws).issues = bulkWrite s.issues (opsFor "issues" ws) := by
  induction ws generalizing s with
  | nil => rfl
  | cons w rest ih =>
    have hw := hws w (List.mem_cons_self _ _)
    have hrest : ∀ w2 ∈ rest, WCwf w2 := fun w2 h2 => hws w2 (List.mem_cons_of_mem _ h2)
    have hstep : applyWrites s (w :: rest) = applyWrites (applyWrite s w) rest := rfl
    rw [hstep, ih _ hrest, opsFor, bulkWrite_append]
    cases w with
    | updateOne c f sd =>
      obtain ⟨hc, _⟩ := hw
      subst hc
      simp [applyWrite, Store.setColl, Store.getColl, WriteCall.coll, opsOf, bulkWrite]
    | bulkWrite c ops =>
      rcases hw with ⟨hc, _⟩ | ⟨hc, _⟩ | ⟨hc, _⟩ | ⟨hc, _⟩ <;> subst hc <;>
        simp [applyWrite, Store.setColl, Store.getColl, WriteCall.coll, opsOf, bulkWrite]

theorem opsFor_wf_projects (ws : List WriteCall) (hws : ∀ w ∈ ws, WCwf w) :
    ∀ op ∈ opsFor "projects" ws, opWF projectKeys 1 op := by
  induction ws with
  | nil => intro op hop; simp [opsFor] at hop
  | cons w rest ih =>
    intro op hop
    have hw := hws w (List.mem_cons_self _ _)
    have hrest : ∀ w2 ∈ rest, WCwf w2 := fun w2 h2 => hws w2 (List.mem_cons_of_mem _ h2)
    unfold opsFor at hop
    rcases List.mem_append.mp hop with h | h
    · cases w with
      | updateOne c f sd =>
        obtain ⟨hc, hwf⟩ := hw
        subst hc
        simp [WriteCall.coll, opsOf] at h
        exact h ▸ hwf
      | bulkWrite c ops =>
        rcases hw with ⟨hc, _⟩ | ⟨hc, _⟩ | ⟨hc, _⟩ | ⟨hc, _⟩ <;> subst hc <;>
          simp [WriteCall.coll] at h
    · exact ih hrest op h

theorem opsFor_wf_members (ws : List WriteCall) (hws : ∀ w ∈ ws, WCwf w) :
    ∀ op ∈ opsFor "members" ws, opWF memberKeys 2 op := by
  induction ws with
  | nil => intro op hop; simp [opsFor] at hop
  | cons w rest ih =>
    intro op hop
    have hw := hws w (List.mem_cons_self _ _)
    have hrest : ∀ w2 ∈ rest, WCwf w2 := fun w2 h2 => hws w2 (List.mem_cons_of_mem _ h2)
    unfold opsFor at hop
    rcases List.mem_append.mp hop with h | h
    · cases w with
      | updateOne c f sd =>
        obtain ⟨hc, _⟩ := hw
        subst hc
        simp [WriteCall.coll] at h
      | bulkWrite c ops =>
        rcases hw with ⟨hc, hwf⟩ | ⟨hc, _⟩ | ⟨hc, _⟩ | ⟨hc, _⟩ <;> subst hc <;>
          simp only [WriteCall.coll, if_pos rfl, opsOf] at h <;>
          first
          | exact hwf op h
          | simp at h
    · exact ih hrest op h

theorem opsFor_wf_commits (ws : List WriteCall) (hws : ∀ w ∈ ws, WCwf w) :
    ∀ op ∈ opsFor "commits" ws, opWF commitKeys 2 op := by
  induction ws with
  | nil => intro op hop; simp [opsFor] at hop
  | cons w rest ih =>
    intro op hop
    have hw := hws w (List.mem_cons_self _ _)
    have hrest : ∀ w2 ∈ rest, WCwf w2 := fun w2 h2 => hws w2 (List.mem_cons_of_mem _ h2)
    unfold opsFor at hop
    rcases List.mem_append.mp hop with h | h
    · cases w with
      | updateOne c f sd =>
        obtain ⟨hc, _⟩ := hw
        subst hc
        simp [WriteCall.coll] at h
      | bulkWrite c ops =>
        rcases hw with ⟨hc, _⟩ | ⟨hc, hwf⟩ | ⟨hc, _⟩ | ⟨hc, _⟩ <;> subst hc <;>
          simp only [WriteCall.coll, if_pos rfl, opsOf] at h <;>
          first
          | exact hwf op h
          | simp at h
    · exact ih hrest op h

theorem opsFor_wf_merge_requests (ws : List WriteCall) (hws : ∀ w ∈ ws, WCwf w) :
    ∀ op ∈ opsFor "merge_requests" ws, opWF mergeRequestKeys 2 op := by
  induction ws with
  | nil => intro op hop; simp [opsFor] at hop
  | cons w rest ih =>
    intro op hop
    have hw := hws w (List.mem_cons_self _ _)
    have hrest : ∀ w2 ∈ rest, WCwf w2 := fun w2 h2 => hws w2 (List.mem_cons_of_mem _ h2)
    unfold opsFor at hop
    rcases List.mem_append.mp hop with h | h
    · cases w with
      | updateOne c f sd =>
        obtain ⟨hc, _⟩ := hw
        subst hc
        simp [WriteCall.coll] at h
      | bulkWrite c ops =>
        rcases hw with ⟨hc, _⟩ | ⟨hc, _⟩ | ⟨hc, hwf⟩ | ⟨hc, _⟩ <;> subst hc <;>
          simp only [WriteCall.coll, if_pos rfl, opsOf] at h <;>
          first
          | exact hwf op h
          | simp at h
    · exact ih hrest op h

theorem opsFor_wf_issues (ws : List WriteCall) (hws : ∀ w ∈ ws, WCwf w) :
    ∀ op ∈ opsFor "issues" ws, opWF issueKeys 2 op := by
  induction ws with
  | nil => intro op hop; simp [opsFor] at hop
  | cons w rest ih =>
    intro op hop
    have hw := hws w (List.mem_cons_self _ _)
    have hrest : ∀ w2 ∈ rest, WCwf w2 := fun w2 h2 => hws w2 (List.mem_cons_of_mem _ h2)
    unfold opsFor at hop
    rcases List.mem_append.mp hop with h | h
    · cases w with
      | updateOne c f sd =>
        obtain ⟨hc, _⟩ := hw
        subst hc
        simp [WriteCall.coll] at h
      | bulkWrite c ops =>
        rcases hw with ⟨hc, _⟩ | ⟨hc, _⟩ | ⟨hc, _⟩ | ⟨hc, hwf⟩ <;> subst hc <;>
          simp only [WriteCall.coll, if_pos rfl, opsOf] at h <;>
          first
          | exact hwf op h
          | simp at h
    · exact ih hrest op h

theorem storeEq {a b : Store} (h1 : a.projects = b.projects)
    (h2 : a.members = b.members) (h3 : a.commits = b.commits)
    (h4 : a.merge_requests = b.merge_requests) (h5 : a.issues = b.issues) : a = b := by
  cases a; cases b
  simp_all

/-- The store a run leaves behind (failed or not): the run's write sequence
applied to the initial store. -/
theorem runSync_store (env : SyncEnv) (db : DBState) (startMs endMs : Nat) :
    (runSync env db startMs endMs).2 = dbAppend db (runWrites env) := by
  rw [runSync_eq]

/-- Replaying the same well-formed write sequence on top of its own result
leaves the store unchanged. -/
theorem applyWrites_idem (s : Store) (ws : List WriteCall)
    (hws : ∀ w ∈ ws, WCwf w) :
    applyWrites (applyWrites s ws) ws = applyWrites s ws := by
  apply storeEq
  · rw [applyWrites_projects _ _ hws, applyWrites_projects _ _ hws]
    exact bulkWrite_idem (by decide) _ _ (opsFor_wf_projects ws hws)
  · rw [applyWrites_members _ _ hws, applyWrites_members _ _ hws]
    exact bulkWrite_idem (by decide) _ _ (opsFor_wf_members ws hws)
  · rw [applyWrites_commits _ _ hws, applyWrites_commits _ _ hws]
    exact bulkWrite_idem (by decide) _ _ (opsFor_wf_commits ws hws)
  · rw [applyWrites_merge_requests _ _ hws, applyWrites_merge_requests _ _ hws]
    exact bulkWrite_idem (by decide) _ _ (opsFor_wf_merge_requests ws hws)
  · rw [applyWrites_issues _ _ hws, applyWrites_issues _ _ hws]
    exact bulkWrite_idem (by decide) _ _ (opsFor_wf_issues ws hws)

/-- C1: Idempotence of the sync — for every fixed remote snapshot and any
initial store, running the full sync twice in succession yields store
contents identical to running it once: every write is an upsert keyed by the
natural key, so repeated runs converge and never accumulate duplicates. -/
theorem sync_idempotent (env : SyncEnv) (db : DBState) (t1 t2 t3 t4 : Nat) :
    ((runSync env (runSync env db t1 t2).2 t3 t4).2).store
      = ((runSync env db t1 t2).2).store := by
  have h1 : (runSync env db t1 t2).2 = dbAppend db (runWrites env) :=
    runSync_store env db t1 t2
  rw [h1, runSync_store]
  show applyWrites (applyWrites db.store (runWrites env)) (runWrites env)
      = applyWrites db.store (runWrites env)
  exact applyWrites_idem db.store (runWrites env) (runWrites_wf env)

/-! ## Paginator protocol lemmas -/
theorem paginatedGetGo_trace (url : String) (params : List (String × String))
    (pages : List HttpResponse) (page i : Nat)
    (h : i < (paginatedGetGo url params page pages).2.length) :
    (paginatedGetGo url params page pages).2.get? i = some (pageUrl url params (page + i)) := by
  induction pages generalizing page i with
  | nil =>
    rw [paginatedGetGo] at h ⊢
    simp only [List.length_singleton] at h
    have hi : i = 0 := by omega
    subst hi
    simp
  | cons res rest ih =>
    rw [paginatedGetGo] at h ⊢
    by_cases hok : res.isOk = true
    · rw [if_pos hok] at h ⊢
      by_cases hlen : res.jsonBody.length = 0
      · rw [if_pos hlen] at h ⊢
        simp only [List.length_singleton] at h
        have hi : i = 0 := by omega
        subst hi
        simp
      · rw [if_neg hlen] at h ⊢
        dsimp only at h ⊢
        cases i with
        | zero => simp
        | succ i =>
          have h2 : i < (paginatedGetGo url params (page + 1) rest).2.length := by
            simp only [List.length_cons] at h
            omega
          simp only [List.get?_cons_succ]
          rw [ih (page + 1) i h2]
          have harg : page + 1 + i = page + (i + 1) := by omega
          rw [harg]
    · rw [if_neg hok] at h ⊢
      simp only [List.length_singleton] at h
      have hi : i = 0 := by omega
      subst hi
      simp

theorem paginatedGetGo_full (url : String) (params : List (String × String))
    (pages : List HttpResponse) (page : Nat)
    (h : ∀ p ∈ pages, p.isOk = true ∧ p.jsonBody ≠ []) :
    paginatedGetGo url params page pages
      = (.ok (pages.map HttpResponse.jsonBody).flatten,
         (List.range (pages.length + 1)).map fun i => pageUrl url params (page + i)) := by
  induction pages generalizing page with
  | nil => simp [paginatedGetGo, List.range_succ]
  | cons res rest ih =>
    obtain ⟨hok, hne⟩ := h res (List.mem_cons_self _ _)
    have hrest := fun p hp => h p (List.mem_cons_of_mem _ hp)
    rw [paginatedGetGo, if_pos hok,
      if_neg (fun hc => hne (List.length_eq_zero.mp hc)), ih (page + 1) hrest]
    refine Prod.ext ?_ ?_
    · simp [Except.map]
    · show pageUrl url params page :: _ = _
      conv_rhs => rw [List.length_cons, List.range_succ_eq_map]
      simp only [List.map_cons, List.map_map, Nat.add_zero]
      congr 1
      apply List.map_congr_left
      intro i _
      simp only [Function.comp_apply]
      congr 1
      omega

set_option maxRecDepth 10000 in
/-- C2: Paginator protocol — pages are requested as 1, 2, 3, … with a fixed
page size of 100 (each fetched URL is `pageUrl url params (i+1)`), the
records of all non-empty pages are concatenated, and the walk stops only at
the first zero-length page (a short non-empty page does not terminate it);
with two full pages of 100 followed by the empty page it returns exactly 200
records in exactly 3 fetch calls. -/
theorem paginator_protocol :
    (∀ (pages : List HttpResponse) (url : String) (params : List (String × String))
        (i : Nat), i < (paginatedGet pages url params).2.length →
        (paginatedGet pages url params).2.get? i = some (pageUrl url params (i + 1))) ∧
    (∀ (pages : List HttpResponse) (url : String) (params : List (String × String)),
        (∀ p ∈ pages, p.isOk = true ∧ p.jsonBody ≠ []) →
        (paginatedGet pages url params).1 = .ok (pages.map HttpResponse.jsonBody).flatten ∧
        (paginatedGet pages url params).2.length = pages.length + 1) ∧
    ((paginatedGet [⟨200, "OK", List.replicate 100 []⟩, ⟨200, "OK", List.replicate 100 []⟩]
        "u" []).1 = .ok (List.replicate 200 ([] : Doc)) ∧
      (paginatedGet [⟨200, "OK", List.replicate 100 []⟩, ⟨200, "OK", List.replicate 100 []⟩]
        "u" []).2.length = 3) := by
  refine ⟨?_, ?_, ?_, ?_⟩
  · intro pages url params i h
    unfold paginatedGet at h ⊢
    rw [paginatedGetGo_trace url params pages 1 i h]
    rw [Nat.add_comm]
  · intro pages url params h
    unfold paginatedGet
    rw [paginatedGetGo_full url params pages 1 h]
    exact ⟨rfl, by simp⟩
  · decide
  · decide

theorem paginator_protocol_witness :
    (paginatedGet [⟨200, "OK", [[("a", Value.vInt 1)]]⟩] "u" []).2.get? 0
        = some (pageUrl "u" [] 1) ∧
    (paginatedGet [⟨200, "OK", [[("a", Value.vInt 1)]]⟩] "u" []).1
        = .ok [[("a", Value.vInt 1)]] ∧
    (paginatedGet [⟨200, "OK", [[("a", Value.vInt 1)]]⟩] "u" []).2.length = 2 := by
  refine ⟨paginator_protocol.1 [⟨200, "OK", [[("a", Value.vInt 1)]]⟩] "u" [] 0 (by decide),
    ?_, (paginator_protocol.2.1 [⟨200, "OK", [[("a", Value.vInt 1)]]⟩] "u" [] (by decide)).2⟩
  have h := (paginator_protocol.2.1 [⟨200, "OK", [[("a", Value.vInt 1)]]⟩] "u" []
    (by decide)).1
  simpa using h

theorem paginatedGetGo_error (url : String) (params : List (String × String))
    (pre : List HttpResponse) (bad : HttpResponse) (post : List HttpResponse)
    (page : Nat) (hpre : ∀ p ∈ pre, p.isOk = true ∧ p.jsonBody ≠ [])
    (hbad : bad.isOk = false) :
    (paginatedGetGo url params page (pre ++ bad :: post)).1
      = .error (gitlabApiError bad.status bad.statusText url) := by
  induction pre generalizing page with
  | nil =>
    rw [List.nil_append, paginatedGetGo, if_neg (by simp [hbad])]
  | cons res rest ih =>
    obtain ⟨hok, hne⟩ := hpre res (List.mem_cons_self _ _)
    have hrest := fun p hp => hpre p (List.mem_cons_of_mem _ hp)
    rw [List.cons_append, paginatedGetGo, if_pos hok,
      if_neg (fun hc => hne (List.length_eq_zero.mp hc))]
    dsimp only
    rw [ih (page + 1) hrest]
    rfl

/-- C7: FetchError shape and fatality — a non-2xx page response makes the
paginator raise the error string carrying the URL, status code and status
text (and yield no records); no syncer catches it (each returns the error
unchanged, issuing no write), and it is fatal: the run ends `failed`. -/
theorem fetchError_fatal :
    (∀ (pre : List HttpResponse) (bad : HttpResponse) (post : List HttpResponse)
        (url : String) (params : List (String × String)),
        (∀ p ∈ pre, p.isOk = true ∧ p.jsonBody ≠ []) → bad.isOk = false →
        (paginatedGet (pre ++ bad :: post) url params).1
          = .error (gitlabApiError bad.status bad.statusText url)) ∧
    (∀ env pid db e, membersFetch env pid = .error e →
        syncMembers env pid db = (.error e, db)) ∧
    (∀ env pid db e, commitsFetch env pid = .error e →
        syncCommits env pid db = (.error e, db)) ∧
    (∀ env pid db e, mergeRequestsFetch env pid = .error e →
        syncMergeRequests env pid db = (.error e, db)) ∧
    (∀ env pid db e, issuesFetch env pid = .error e →
        syncIssues env pid db = (.error e, db)) ∧
    (∀ env db t1 t2 e, syncOutcome env = .error e →
        (runSync env db t1 t2).1 = .failed e) := by
  refine ⟨?_, ?_, ?_, ?_, ?_, ?_⟩
  · intro pre bad post url params hpre hbad
    exact paginatedGetGo_error url params pre bad post 1 hpre hbad
  · intro env pid db e h
    rw [syncMembers_eq]
    unfold memberOutcome memberWrites
    rw [h]
    simp [dbAppend_nil]
  · intro env pid db e h
    rw [syncCommits_eq]
    unfold commitOutcome commitWrites
    rw [h]
    simp [dbAppend_nil]
  · intro env pid db e h
    rw [syncMergeRequests_eq]
    unfold mergeRequestOutcome mergeRequestWrites
    rw [h]
    simp [dbAppend_nil]
  · intro env pid db e h
    rw [syncIssues_eq]
    unfold issueOutcome issueWrites
    rw [h]
    simp [dbAppend_nil]
  · intro env db t1 t2 e h
    rw [runSync_eq, h]

theorem fetchError_fatal_witness :
    (paginatedGet [⟨500, "ISE", []⟩] "u" []).1 = .error (gitlabApiError 500 "ISE" "u") ∧
    syncMembers errEnv (.vInt 1) emptyDB
      = (.error (gitlabApiError 500 "Internal Server Error"
          (membersUrl errEnv (.vInt 1))), emptyDB) ∧
    (runSync errEnv emptyDB 0 0).1
      = .failed (gitlabApiError 500 "Internal Server Error" (projectsUrl errEnv)) := by
  refine ⟨?_, ?_, ?_⟩
  · exact fetchError_fatal.1 [] ⟨500, "ISE", []⟩ [] "u" [] (by simp) (by rfl)
  · exact fetchError_fatal.2.1 errEnv (.vInt 1) emptyDB _ (by rfl)
  · exact fetchError_fatal.2.2.2.2.2 errEnv emptyDB 0 0 _ (by rfl)

/-- C5: Empty-listing short-circuit — for every project and every entity
syncer, an empty remote listing yields a count of 0 and leaves the database
handle entirely untouched: no write call is issued at all (the write log is
unchanged, so not even an empty-batch upsert is sent). -/
theorem emptyListing_shortCircuit (env : SyncEnv) (pid : Value) (db : DBState) :
    (membersFetch env pid = .ok [] → syncMembers env pid db = (.ok 0, db)) ∧
    (commitsFetch env pid = .ok [] → syncCommits env pid db = (.ok 0, db)) ∧
    (mergeRequestsFetch env pid = .ok [] → syncMergeRequests env pid db = (.ok 0, db)) ∧
    (issuesFetch env pid = .ok [] → syncIssues env pid db = (.ok 0, db)) := by
  refine ⟨?_, ?_, ?_, ?_⟩
  · intro h
    rw [syncMembers_eq]
    unfold memberOutcome memberWrites
    rw [h]
    simp [dbAppend_nil]
  · intro h
    rw [syncCommits_eq]
    unfold commitOutcome commitWrites
    rw [h]
    simp [dbAppend_nil]
  · intro h
    rw [syncMergeRequests_eq]
    unfold mergeRequestOutcome mergeRequestWrites
    rw [h]
    simp [dbAppend_nil]
  · intro h
    rw [syncIssues_eq]
    unfold issueOutcome issueWrites
    rw [h]
    simp [dbAppend_nil]

theorem emptyListing_shortCircuit_witness :
    syncMembers emptyEnv (.vInt 1) emptyDB = (.ok 0, emptyDB) ∧
    syncCommits emptyEnv (.vInt 1) emptyDB = (.ok 0, emptyDB) ∧
    syncMergeRequests emptyEnv (.vInt 1) emptyDB = (.ok 0, emptyDB) ∧
    syncIssues emptyEnv (.vInt 1) emptyDB = (.ok 0, emptyDB) :=
  ⟨(emptyListing_shortCircuit emptyEnv (.vInt 1) emptyDB).1 (by rfl),
   (emptyListing_shortCircuit emptyEnv (.vInt 1) emptyDB).2.1 (by rfl),
   (emptyListing_shortCircuit emptyEnv (.vInt 1) emptyDB).2.2.1 (by rfl),
   (emptyListing_shortCircuit emptyEnv (.vInt 1) emptyDB).2.2.2 (by rfl)⟩

/-- C6: Commit statistics defaulting — a remote commit carrying no `stats`
object maps to `additions = deletions = total = 0`; with a `stats` object
present the mapped values equal the remote ones. -/
theorem commitStats_defaulting (pid : Value) (c : Doc) :
    (Doc.get c "stats" = .vUndef →
        lookupField (commitOp pid c).2 "additions" = some (.vInt 0) ∧
        lookupField (commitOp pid c).2 "deletions" = some (.vInt 0) ∧
        lookupField (commitOp pid c).2 "total" = some (.vInt 0)) ∧
    (∀ (fl : FieldList) (a dl tt : Int), Doc.get c "stats" = .vObj fl →
        fl.lookupF "additions" = .vInt a → fl.lookupF "deletions" = .vInt dl →
        fl.lookupF "total" = .vInt tt →
        lookupField (commitOp pid c).2 "additions" = some (.vInt a) ∧
        lookupField (commitOp pid c).2 "deletions" = some (.vInt dl) ∧
        lookupField (commitOp pid c).2 "total" = some (.vInt tt)) := by
  have hadd : lookupField (commitOp pid c).2 "additions"
      = some (jsOr (Value.get (jsOr (Doc.get c "stats") (.vObj .nil)) "additions")
          (.vInt 0)) := rfl
  have hdel : lookupField (commitOp pid c).2 "deletions"
      = some (jsOr (Value.get (jsOr (Doc.get c "stats") (.vObj .nil)) "deletions")
          (.vInt 0)) := rfl
  have htot : lookupField (commitOp pid c).2 "total"
      = some (jsOr (Value.get (jsOr (Doc.get c "stats") (.vObj .nil)) "total")
          (.vInt 0)) := rfl
  constructor
  · intro h
    rw [hadd, hdel, htot, h]
    exact ⟨rfl, rfl, rfl⟩
  · intro fl a dl tt h ha hd ht
    rw [hadd, hdel, htot, h]
    have hobj : jsOr (Value.vObj fl) (.vObj .nil) = .vObj fl := rfl
    rw [hobj]
    have hga : Value.get (.vObj fl) "additions" = fl.lookupF "additions" := rfl
    have hgd : Value.get (.vObj fl) "deletions" = fl.lookupF "deletions" := rfl
    have hgt : Value.get (.vObj fl) "total" = fl.lookupF "total" := rfl
    rw [hga, hgd, hgt, ha, hd, ht]
    refine ⟨?_, ?_, ?_⟩
    · by_cases h0 : a = 0
      · subst h0; rfl
      · simp [jsOr, Value.truthy, bne, h0]
    · by_cases h0 : dl = 0
      · subst h0; rfl
      · simp [jsOr, Value.truthy, bne, h0]
    · by_cases h0 : tt = 0
      · subst h0; rfl
      · simp [jsOr, Value.truthy, bne, h0]

theorem commitStats_defaulting_witness :
    (lookupField (commitOp (.vInt 1) [("id", .vStr "abc")]).2 "additions"
        = some (.vInt 0) ∧
      lookupField (commitOp (.vInt 1) [("id", .vStr "abc")]).2 "deletions"
        = some (.vInt 0) ∧
      lookupField (commitOp (.vInt 1) [("id", .vStr "abc")]).2 "total"
        = some (.vInt 0)) ∧
    (lookupField (commitOp (.vInt 1)
        [("id", .vStr "abc"),
         ("stats", .vObj (.cons "additions" (.vInt 5)
            (.cons "deletions" (.vInt 2) (.cons "total" (.vInt 7) .nil))))]).2
        "additions" = some (.vInt 5)) :=
  ⟨(commitStats_defaulting (.vInt 1) [("id", .vStr "abc")]).1 (by rfl),
   ((commitStats_defaulting (.vInt 1)
      [("id", .vStr "abc"),
       ("stats", .vObj (.cons "additions" (.vInt 5)
          (.cons "deletions" (.vInt 2) (.cons "total" (.vInt 7) .nil))))]).2
      _ 5 2 7 (by rfl) (by rfl) (by rfl) (by rfl)).1⟩

/-- C10: Partial-replace upsert semantics — when a document matching the
natural-key filter exists (first match, earlier documents not matching), the
upsert rewrites that document in place with the `$set` field list: every
listed field now holds the new value, every field outside the listed set is
left unchanged, and no second document is inserted. -/
theorem upsert_partial_replace (c1 : List Doc) (d : Doc) (c2 : List Doc)
    (filter s : Doc) (hpre : ∀ d2 ∈ c1, docMatches filter d2 = false)
    (hd : docMatches filter d = true) (hnd : (s.map Prod.fst).Nodup) :
    updateOneUpsert (c1 ++ d :: c2) filter s = c1 ++ setFields d s :: c2 ∧
    (∀ kv ∈ s, lookupField (setFields d s) kv.1 = some kv.2) ∧
    (∀ k, k ∉ s.map Prod.fst → lookupField (setFields d s) k = lookupField d k) := by
  refine ⟨?_, ?_, ?_⟩
  · induction c1 with
    | nil => rw [List.nil_append, updateOneUpsert, if_pos hd, List.nil_append]
    | cons x rest ih =>
      have hx := hpre x (List.mem_cons_self _ _)
      rw [List.cons_append, updateOneUpsert, if_neg (by simp [hx]),
        ih (fun d2 h2 => hpre d2 (List.mem_cons_of_mem _ h2)), List.cons_append]
  · intro kv hkv
    exact lookupField_setFields_mem _ _ _ _ hnd (by cases kv; exact hkv)
  · intro k hk
    exact lookupField_setFields_not_mem _ _ _ hk

theorem upsert_partial_replace_witness :
    updateOneUpsert [storedMR] mrFilter mrSet = [setFields storedMR mrSet] ∧
    lookupField (setFields storedMR mrSet) "state" = some (.vStr "merged") ∧
    lookupField (setFields storedMR mrSet) "extra" = some (.vStr "keep") := by
  have h := upsert_partial_replace [] storedMR [] mrFilter mrSet (by simp)
    (by decide) (by decide)
  refine ⟨by simpa using h.1, ?_, ?_⟩
  · exact h.2.1 ("state", .vStr "merged") (by decide)
  · rw [h.2.2 "extra" (by decide)]
    rfl

/-- A well-formed op's `$set` result never matches a different filter of the
same key list. -/
theorem docMatches_setFields_of_ne {S : List String} {m : Nat} (hS : S.Nodup)
    {op : Doc × Doc} (hwf : opWF S m op) {f : Doc}
    (hf : f.map Prod.fst = S.take m) (hne : f ≠ op.1) (x : Doc) :
    docMatches f (setFields x op.2) = false := by
  cases hb : docMatches f (setFields x op.2) with
  | false => rfl
  | true =>
    have hnd : (op.2.map Prod.fst).Nodup := hwf.1 ▸ hS
    have hop1keys : op.1.map Prod.fst = S.take m := by
      rw [hwf.2, List.map_take, hwf.1]
    have hop1m : docMatches op.1 (setFields x op.2) = true :=
      hwf.2 ▸ docMatches_take_setFields x op.2 m hnd
    exact absurd (filters_eq_of_matches _ _ _ (hf.trans hop1keys.symm) hb hop1m) hne

/-- An upsert with a different filter introduces no match for `f`. -/
theorem countP_updateOne_of_ne {S : List String} {m : Nat} (hS : S.Nodup)
    {op : Doc × Doc} (hwf : opWF S m op) {f : Doc}
    (hf : f.map Prod.fst = S.take m) (hne : f ≠ op.1) :
    ∀ c : List Doc, (c.countP fun d => docMatches f d) = 0 →
      ((updateOneUpsert c op.1 op.2).countP fun d => docMatches f d) = 0 := by
  intro c
  induction c with
  | nil =>
    intro _
    simp [updateOneUpsert, List.countP_cons,
      docMatches_setFields_of_ne hS hwf hf hne]
  | cons d cs ih =>
    intro h
    rw [List.countP_cons] at h
    have hd0 : docMatches f d = false := by
      cases hb : docMatches f d with
      | false => rfl
      | true => rw [hb] at h; simp at h
    have hcs0 : (cs.countP fun d => docMatches f d) = 0 := by omega
    by_cases hm : docMatches op.1 d = true
    · rw [updateOneUpsert, if_pos hm, List.countP_cons,
        docMatches_setFields_of_ne hS hwf hf hne]
      simpa using hcs0
    · rw [updateOneUpsert, if_neg hm, List.countP_cons, ih hcs0, hd0]
      simp

/-- One upsert preserves key uniqueness. -/
theorem updateOne_keyUnique {S : List String} {m : Nat} (hS : S.Nodup)
    {op : Doc × Doc} (hwf : opWF S m op) (c : List Doc)
    (h : keyUnique (S.take m) c) : keyUnique (S.take m) (updateOneUpsert c op.1 op.2) := by
  intro f hf
  have hnd : (op.2.map Prod.fst).Nodup := hwf.1 ▸ hS
  induction c with
  | nil =>
    have := List.countP_le_length (l := [setFields op.1 op.2])
      (p := fun d => docMatches f d)
    simpa [updateOneUpsert] using this
  | cons d cs ih =>
    have hcs : keyUnique (S.take m) cs := by
      intro g hg
      have := h g hg
      rw [List.countP_cons] at this
      omega
    by_cases hm : docMatches op.1 d = true
    · rw [updateOneUpsert, if_pos hm, List.countP_cons]
      by_cases hfd : docMatches f (setFields d op.2) = true
      · have hfe : f = op.1 := by
          have hop1keys : op.1.map Prod.fst = S.take m := by
            rw [hwf.2, List.map_take, hwf.1]
          have hop1m : docMatches op.1 (setFields d op.2) = true :=
            hwf.2 ▸ docMatches_take_setFields d op.2 m hnd
          exact filters_eq_of_matches _ _ _ (hf.trans hop1keys.symm) hfd hop1m
        have hdm : docMatches f d = true := hfe ▸ hm
        have h1 := h f hf
        rw [List.countP_cons, if_pos hdm] at h1
        rw [if_pos hfd]
        omega
      · rw [if_neg hfd]
        simpa using hcs f hf
    · rw [updateOneUpsert, if_neg hm, List.countP_cons]
      by_cases hfd : docMatches f d = true
      · have hne : f ≠ op.1 := fun he => hm (he ▸ hfd)
        have h1 := h f hf
        rw [List.countP_cons, if_pos hfd] at h1
        have h0 : (cs.countP fun d => docMatches f d) = 0 := by omega
        rw [countP_updateOne_of_ne hS hwf hf hne cs h0, if_pos hfd]
      · rw [if_neg hfd]
        simpa using ih hcs

/-- A whole ordered batch preserves key uniqueness. -/
theorem bulkWrite_keyUnique {S : List String} {m : Nat} (hS : S.Nodup)
    (ops : List (Doc × Doc)) (hops : ∀ op ∈ ops, opWF S m op) (c : List Doc)
    (h : keyUnique (S.take m) c) : keyUnique (S.take m) (bulkWrite c ops) := by
  induction ops generalizing c with
  | nil => exact h
  | cons op rest ih =>
    exact ih (fun op2 h2 => hops op2 (List.mem_cons_of_mem _ h2)) _
      (updateOne_keyUnique hS (hops op (List.mem_cons_self _ _)) c h)

theorem emptyStore_keyUnique : storeKeyUnique emptyStore := by
  refine ⟨?_, ?_, ?_, ?_, ?_⟩ <;> · intro f hf; simp [emptyStore]

theorem applyWrites_keyUnique (s : Store) (ws : List WriteCall)
    (hws : ∀ w ∈ ws, WCwf w) (h : storeKeyUnique s) :
    storeKeyUnique (applyWrites s ws) := by
  obtain ⟨h1, h2, h3, h4, h5⟩ := h
  refine ⟨?_, ?_, ?_, ?_, ?_⟩
  · rw [applyWrites_projects _ _ hws]
    exact bulkWrite_keyUnique (by decide) _ (opsFor_wf_projects ws hws) _ h1
  · rw [applyWrites_members _ _ hws]
    exact bulkWrite_keyUnique (by decide) _ (opsFor_wf_members ws hws) _ h2
  · rw [applyWrites_commits _ _ hws]
    exact bulkWrite_keyUnique (by decide) _ (opsFor_wf_commits ws hws) _ h3
  · rw [applyWrites_merge_requests _ _ hws]
    exact bulkWrite_keyUnique (by decide) _ (opsFor_wf_merge_requests ws hws) _ h4
  · rw [applyWrites_issues _ _ hws]
    exact bulkWrite_keyUnique (by decide) _ (opsFor_wf_issues ws hws) _ h5

set_option maxRecDepth 10000 in
/-- C4: Natural-key uniqueness and overwrite — every run preserves the
at-most-one-document-per-natural-key invariant of every collection (so it
holds for all stores the sync produces from an empty store), and re-syncing
merge request `iid=7` with its state changed from `opened` to `merged`
leaves exactly one stored record for `iid=7`, whose state is `merged`. -/
theorem naturalKey_unique_overwrite :
    (∀ env db t1 t2, storeKeyUnique db.store →
        storeKeyUnique ((runSync env db t1 t2).2).store) ∧
    ((runSync mrEnvMerged (runSync mrEnvOpened emptyDB 0 0).2 0 0).2.store.merge_requests.length
        = 1 ∧
      lookupField
        ((runSync mrEnvMerged (runSync mrEnvOpened emptyDB 0 0).2 0 0).2.store.merge_requests.headD
          []) "iid" = some (.vInt 7) ∧
      lookupField
        ((runSync mrEnvMerged (runSync mrEnvOpened emptyDB 0 0).2 0 0).2.store.merge_requests.headD
          []) "state" = some (.vStr "merged")) := by
  constructor
  · intro env db t1 t2 h
    rw [runSync_store]
    exact applyWrites_keyUnique db.store (runWrites env) (runWrites_wf env) h
  · exact ⟨by decide, by decide, by decide⟩

theorem naturalKey_unique_overwrite_witness :
    storeKeyUnique ((runSync emptyEnv emptyDB 0 0).2).store :=
  naturalKey_unique_overwrite.1 emptyEnv emptyDB 0 0 emptyStore_keyUnique

theorem memberWrites_coll (env : SyncEnv) (pid : Value) :
    ∀ w ∈ memberWrites env pid, w.coll = "members" := by
  intro w hw
  unfold memberWrites at hw
  split at hw
  · simp at hw
  · split at hw
    · simp at hw
    · rw [List.mem_singleton.mp hw]
      rfl

/-- C3: Fatal abort with persisted prefix — with two listed projects A and B
where all four of A's syncers succeed, B's members succeed, and B's
commit-listing fetch fails, the run ends `failed` with that error; the store
holds exactly A's full writes plus B's project upsert and member writes (all
of A's writes persist), and none of the writes issued after A targets the
merge-request or issue collections (they are never reached: the fixed
per-project order runs commits before merge requests and issues). -/
theorem fatalAbort_persistedPrefix
    (env : SyncEnv) (db : DBState) (t1 t2 : Nat) (pA pB : Doc) (e : String)
    (hproj : projectsFetch env = .ok [pA, pB])
    (hmA : ∃ n, memberOutcome env (pA.get "id") = .ok n)
    (hcA : ∃ n, commitOutcome env (pA.get "id") = .ok n)
    (hrA : ∃ n, mergeRequestOutcome env (pA.get "id") = .ok n)
    (hiA : ∃ n, issueOutcome env (pA.get "id") = .ok n)
    (hmB : ∃ n, memberOutcome env (pB.get "id") = .ok n)
    (hcB : commitsFetch env (pB.get "id") = .error e) :
    (runSync env db t1 t2).1 = .failed e ∧
    (runSync env db t1 t2).2.store
      = applyWrites db.store
          (projectWrites env pA ++
            (WriteCall.updateOne "projects"
                [("project_id", Doc.get (projectDoc pB) "project_id")] (projectDoc pB) ::
              memberWrites env (pB.get "id"))) ∧
    (∀ w ∈ (WriteCall.updateOne "projects"
            [("project_id", Doc.get (projectDoc pB) "project_id")] (projectDoc pB) ::
          memberWrites env (pB.get "id")),
        w.coll ≠ "merge_requests" ∧ w.coll ≠ "issues") := by
  obtain ⟨nmA, hmA⟩ := hmA
  obtain ⟨ncA, hcA⟩ := hcA
  obtain ⟨nrA, hrA⟩ := hrA
  obtain ⟨niA, hiA⟩ := hiA
  obtain ⟨nmB, hmB⟩ := hmB
  have hcoB : commitOutcome env (pB.get "id") = .error e := by
    unfold commitOutcome
    rw [hcB]
  have hpoA : projectOutcome env pA = .ok () := by
    unfold projectOutcome
    dsimp only
    rw [hmA, hcA, hrA, hiA]
  have hpoB : projectOutcome env pB = .error e := by
    unfold projectOutcome
    dsimp only
    rw [hmB, hcoB]
  have hpwB : projectWrites env pB
      = WriteCall.updateOne "projects"
          [("project_id", Doc.get (projectDoc pB) "project_id")] (projectDoc pB) ::
        memberWrites env (pB.get "id") := by
    unfold projectWrites
    dsimp only
    rw [hmB, hcoB]
    simp
  have hlw : loopWrites env [pA, pB]
      = projectWrites env pA ++
          (WriteCall.updateOne "projects"
              [("project_id", Doc.get (projectDoc pB) "project_id")] (projectDoc pB) ::
            memberWrites env (pB.get "id")) := by
    rw [loopWrites, hpoA, loopWrites, hpoB, loopWrites, hpwB]
    simp
  have hlo : loopOutcome env [pA, pB] = .error e := by
    simp [loopOutcome, hpoA, hpoB]
  have hso : syncOutcome env = .error e := by
    simp [syncOutcome, hproj, hlo]
  have hrw : runWrites env
      = projectWrites env pA ++
          (WriteCall.updateOne "projects"
              [("project_id", Doc.get (projectDoc pB) "project_id")] (projectDoc pB) ::
            memberWrites env (pB.get "id")) := by
    simp [runWrites, hproj, hlw]
  refine ⟨?_, ?_, ?_⟩
  · rw [runSync_eq, hso]
  · rw [runSync_store]
    show applyWrites db.store (runWrites env) = _
    rw [hrw]
  · intro w hw
    rcases List.mem_cons.mp hw with he | hm
    · subst he
      refine ⟨?_, ?_⟩ <;> · show ("projects" : String) ≠ _; decide
    · rw [memberWrites_coll env _ w hm]
      exact ⟨by decide, by decide⟩

theorem fatalAbort_persistedPrefix_witness :
    (runSync abortEnv emptyDB 0 0).1
      = .failed (gitlabApiError 500 "Internal Server Error"
          (commitsUrl abortEnv (.vInt 2))) :=
  (fatalAbort_persistedPrefix abortEnv emptyDB 0 0 [("id", .vInt 1)] [("id", .vInt 2)]
    (gitlabApiError 500 "Internal Server Error" (commitsUrl abortEnv (.vInt 2)))
    (by rfl) ⟨0, by rfl⟩ ⟨0, by rfl⟩ ⟨0, by rfl⟩ ⟨0, by rfl⟩ ⟨0, by rfl⟩ (by rfl)).1

/-- Counterexample to C8 as stated: a failing run logs only the start line and
`Sync failed: <message>`; the failure log is identical for two runs whose
elapsed times differ (5 s vs 999 s), so the elapsed time is not part of the
failure-path log output. -/
theorem runFailure_log_counterexample :
    (runSync errEnv emptyDB 0 5000).1
      = .failed (gitlabApiError 500 "Internal Server Error" (projectsUrl errEnv)) ∧
    runSyncLog errEnv emptyDB 0 5000 = runSyncLog errEnv emptyDB 0 999000 ∧
    runSyncLog errEnv emptyDB 0 5000
      = [syncStartLine 0,
         syncFailedLine (gitlabApiError 500 "Internal Server Error" (projectsUrl errEnv))] :=
  ⟨rfl, rfl, rfl⟩

/-- C8 (amended): every fetch error propagates uncaught through the syncers
(each returns it unchanged) and is caught exactly once at `runSync`'s
top-level boundary, which logs the error message (without the elapsed time);
the run ends `failed`, and no retry happens — the failed run's write log
grows by exactly the one truncated write sequence. -/
theorem runFailure_topLevel_catch :
    (∀ env pid db e, membersFetch env pid = .error e →
        syncMembers env pid db = (.error e, db)) ∧
    (∀ env pid db e, commitsFetch env pid = .error e →
        syncCommits env pid db = (.error e, db)) ∧
    (∀ env pid db e, mergeRequestsFetch env pid = .error e →
        syncMergeRequests env pid db = (.error e, db)) ∧
    (∀ env pid db e, issuesFetch env pid = .error e →
        syncIssues env pid db = (.error e, db)) ∧
    (∀ env db t1 t2 e, syncOutcome env = .error e →
        (runSync env db t1 t2).1 = .failed e ∧
        runSyncLog env db t1 t2 = [syncStartLine t1, syncFailedLine e] ∧
        (runSync env db t1 t2).2 = dbAppend db (runWrites env)) := by
  refine ⟨?_, ?_, ?_, ?_, ?_⟩
  · intro env pid db e h
    rw [syncMembers_eq]
    unfold memberOutcome memberWrites
    rw [h]
    simp [dbAppend_nil]
  · intro env pid db e h
    rw [syncCommits_eq]
    unfold commitOutcome commitWrites
    rw [h]
    simp [dbAppend_nil]
  · intro env pid db e h
    rw [syncMergeRequests_eq]
    unfold mergeRequestOutcome mergeRequestWrites
    rw [h]
    simp [dbAppend_nil]
  · intro env pid db e h
    rw [syncIssues_eq]
    unfold issueOutcome issueWrites
    rw [h]
    simp [dbAppend_nil]
  · intro env db t1 t2 e h
    have hres : (runSync env db t1 t2).1 = .failed e := by
      rw [runSync_eq, h]
    refine ⟨hres, ?_, runSync_store env db t1 t2⟩
    unfold runSyncLog
    rw [hres]

theorem runFailure_topLevel_catch_witness :
    syncMembers errEnv (.vInt 2) emptyDB
      = (.error (gitlabApiError 500 "Internal Server Error"
          (membersUrl errEnv (.vInt 2))), emptyDB) ∧
    (runSync errEnv emptyDB 3 10).1
      = .failed (gitlabApiError 500 "Internal Server Error" (projectsUrl errEnv)) ∧
    runSyncLog errEnv emptyDB 3 10
      = [syncStartLine 3,
         syncFailedLine (gitlabApiError 500 "Internal Server Error" (projectsUrl errEnv))] :=
  ⟨runFailure_topLevel_catch.1 errEnv (.vInt 2) emptyDB _ (by rfl),
   (runFailure_topLevel_catch.2.2.2.2 errEnv emptyDB 3 10 _ (by rfl)).1,
   (runFailure_topLevel_catch.2.2.2.2 errEnv emptyDB 3 10 _ (by rfl)).2.1⟩

/-- C9: Run summary on success — a run that completes without error reports
the elapsed wall-clock time (`endMs - startMs`), the number of projects
listed, and for each collection the total document count of the whole store
after the run (a post-hoc `countDocuments({})`, not a delta of this run's
writes). -/
theorem runSummary_postHoc (env : SyncEnv) (db : DBState) (t1 t2 n : Nat)
    (h : syncOutcome env = .ok n) :
    (runSync env db t1 t2).1
      = .completed
          { projectCount := n,
            counts :=
              [("projects", (runSync env db t1 t2).2.store.projects.length),
               ("members", (runSync env db t1 t2).2.store.members.length),
               ("commits", (runSync env db t1 t2).2.store.commits.length),
               ("merge_requests", (runSync env db t1 t2).2.store.merge_requests.length),
               ("issues", (runSync env db t1 t2).2.store.issues.length)],
            elapsedMs := t2 - t1 } ∧
    (∀ ps, projectsFetch env = .ok ps → n = ps.length) := by
  constructor
  · rw [runSync_eq, h]
    rfl
  · intro ps hps
    unfold syncOutcome at h
    rw [hps] at h
    dsimp only at h
    cases hlo : loopOutcome env ps with
    | error e => rw [hlo] at h; simp at h
    | ok u =>
      rw [hlo] at h
      injection h with h2
      exact h2.symm

theorem runSummary_postHoc_witness :
    (runSync mrEnvOpened prefilledDB 0 1000).1
      = .completed
          { projectCount := 1,
            counts := [("projects", 1), ("members", 0), ("commits", 0),
                       ("merge_requests", 2), ("issues", 0)],
            elapsedMs := 1000 } := by
  have h := (runSummary_postHoc mrEnvOpened prefilledDB 0 1000 1 (by decide)).1
  rw [h]
  decide
